import Mathlib

/-!
Verification development for the `db_proto` planning prototype
(`src/db_proto.py`): a STRIPS-style world of entities carrying
parameterized tags, rules with pre/postconditions applied forward
(simulation) or backward (regression), a chain validator, and two
backward-chaining search strategies.

Modelling conventions:
* Python tuples/lists of entities become `List Entity`.
* Python `set` values (the per-entity working tag sets built by
  `Rule.forward` / `Rule.backward`) become duplicate-free `List Tag`
  values: `set(xs)` is `xs.dedup`, `s.add x` is `List.insert`,
  `s.discard x` is `List.erase`, and set comprehensions removing
  elements are `List.filter`.  The iteration order of a CPython `set`
  is unspecified, so a concrete order (insert prepends) is chosen;
  no theorem below depends on the order of a multi-element set.
* `None` results become `Option.none`; a possibly-`None` entity pool
  is `Option (List Entity)`.
* The `IndexError` raised by `forward`/`backward` when the pool or
  swizzle is smaller than the rule's participant count is modelled by
  the separate predicate `Rule.arityFail`; the Lean functions are
  total, and every theorem whose faithfulness depends on the absence
  of such an exception carries the corresponding hypotheses
  (`arityFail = false`, well-formed pattern indices, in-range
  swizzles).
* A `swizzle` is a `List Nat`; the empty list models Python `None`
  (the two are interchangeable in the source: both `if swizzle` and
  `if indices` treat `None` and `()` identically).
-/

namespace DbProto

structure Tag where
  tag : String
  binds : List Nat
deriving DecidableEq, Repr

structure Entity where
  id : Nat
  name : String
  tags : List Tag
  notags : List Tag
deriving DecidableEq, Repr

structure Pattern where
  sign : Bool
  entity : Nat
  tag : Tag
deriving DecidableEq, Repr

structure Rule where
  name : String
  names : List String
  pre : List Pattern
  post : List Pattern
deriving DecidableEq, Repr

/-- `self.num = len(names)` from `Rule.__init__`. -/
def Rule.num (r : Rule) : Nat := r.names.length

/-- `self.action = '!' in name` from `Rule.__init__` (Python's `in`
on strings, modelled as membership of the character among the string's
characters). -/
def Rule.action (r : Rule) : Bool := r.name.data.contains '!'

/-- Default entity used to totalize Python's partial list indexing.
Theorems that depend on faithful indexing carry in-range hypotheses. -/
def dEnt : Entity := ⟨0, "", [], []⟩

/-- `tag_match(entity, tag, entities)` from `db_proto.py`: a stored tag
matches the pattern tag when the names agree and the zipped bind
positions (`zip(t.binds, tag.binds)` truncates to the shorter tuple)
all resolve to equal ids. -/
def tag_match (entity : Entity) (tag : Tag) (entities : List Entity) : Bool :=
  entity.tags.any fun t =>
    t.tag == tag.tag &&
    (t.binds.zip tag.binds).all fun bb => (entities.getD bb.2 dEnt).id == bb.1

/-- `pattern_match(pat, entities)` from `db_proto.py`. -/
def pattern_match (pat : Pattern) (entities : List Entity) : Bool :=
  tag_match (entities.getD pat.entity dEnt) pat.tag entities == pat.sign

/-- `swizzle_tuple(lst, indices)` from `db_proto.py`. -/
def swizzle_tuple (lst : List Entity) (indices : List Nat) : List Entity :=
  if indices.isEmpty then lst else indices.map fun i => lst.getD i dEnt

/-- `unswizzle_tuple(original, lst, indices)` from `db_proto.py`. -/
def unswizzle_tuple (original : List Entity) (lst : List Entity)
    (indices : List Nat) : List Entity :=
  if indices.isEmpty then lst
  else (lst.zip indices).foldl (fun c ei => c.set ei.2 ei.1) original

/-- The `IndexError` guard shared by `Rule.forward` and `Rule.backward`:
`len(swizzle) < self.num if swizzle else len(entity_list) < self.num`. -/
def Rule.arityFail (r : Rule) (entity_list : List Entity) (swizzle : List Nat) : Bool :=
  if swizzle.isEmpty then entity_list.length < r.num else swizzle.length < r.num

/-- `tuple(entities[b].id for b in pat.tag.binds)`: resolve a pattern's
local bind indices to entity ids through the current assignment. -/
def resolveBinds (entities : List Entity) (binds : List Nat) : List Nat :=
  binds.map fun b => (entities.getD b dEnt).id

/-- One postcondition step of `Rule.forward`: a positive pattern adds the
resolved tag to the working set, a negative pattern removes every tag
sharing the name. -/
def applyPost (entities : List Entity) (tags : List (List Tag)) (pat : Pattern) :
    List (List Tag) :=
  let binds := resolveBinds entities pat.tag.binds
  if pat.sign then
    tags.set pat.entity (List.insert ⟨pat.tag.tag, binds⟩ (tags.getD pat.entity []))
  else
    tags.set pat.entity ((tags.getD pat.entity []).filter fun t => t.tag ≠ pat.tag.tag)

/-- `Rule.forward(entity_list, swizzle)` from `db_proto.py`: strip
transient (`'!'`-marked) tags into per-entity working sets, test every
precondition against the unstripped entities, apply the postconditions,
rebuild the participants with empty `notags`, and splice them back. -/
def Rule.forward (r : Rule) (entity_list : List Entity) (swizzle : List Nat) :
    Option (List Entity) :=
  let entities := swizzle_tuple entity_list swizzle
  let tags0 := entities.map fun e => (e.tags.filter fun t => !t.tag.data.contains '!').dedup
  if r.pre.all (fun p => pattern_match p entities) then
    let tags := r.post.foldl (applyPost entities) tags0
    some (unswizzle_tuple entity_list
      (entities.zipWith (fun e t => Entity.mk e.id e.name t []) tags) swizzle)
  else none

/-- One postcondition step of `Rule.backward`: a positive pattern
discards the resolved tag from `tags`, a negative one discards it from
`notags`. -/
def applyPostBack (entities : List Entity)
    (st : List (List Tag) × List (List Tag)) (pat : Pattern) :
    List (List Tag) × List (List Tag) :=
  let binds := resolveBinds entities pat.tag.binds
  if pat.sign then
    (st.1.set pat.entity ((st.1.getD pat.entity []).erase ⟨pat.tag.tag, binds⟩), st.2)
  else
    (st.1, st.2.set pat.entity ((st.2.getD pat.entity []).erase ⟨pat.tag.tag, binds⟩))

/-- One precondition step of `Rule.backward`: a positive pattern adds
the resolved tag to `tags`, a negative one adds it to `notags`. -/
def applyPreBack (entities : List Entity)
    (st : List (List Tag) × List (List Tag)) (pat : Pattern) :
    List (List Tag) × List (List Tag) :=
  let binds := resolveBinds entities pat.tag.binds
  if pat.sign then
    (st.1.set pat.entity (List.insert ⟨pat.tag.tag, binds⟩ (st.1.getD pat.entity [])), st.2)
  else
    (st.1, st.2.set pat.entity (List.insert ⟨pat.tag.tag, binds⟩ (st.2.getD pat.entity [])))

/-- The validation of `Rule.backward`: `Counter(t.tag for t in ts)` has
a most-common count above 1, i.e. some tag name occurs on two distinct
tags of the (duplicate-free) set. -/
def hasDupTagName (ts : List Tag) : Bool :=
  ts.any fun t => 1 < ts.countP fun u => u.tag == t.tag

/-- The per-entity tag/notag sets computed by `Rule.backward` before its
validation: start from the current sets, discard the resolved
postconditions, then add the resolved preconditions. -/
def backwardSets (r : Rule) (entities : List Entity) :
    List (List Tag) × List (List Tag) :=
  let tags0 := entities.map fun e => e.tags.dedup
  let notags0 := entities.map fun e => e.notags.dedup
  r.pre.foldl (applyPreBack entities) (r.post.foldl (applyPostBack entities) (tags0, notags0))

/-- `Rule.backward(entity_list, swizzle)` from `db_proto.py`. -/
def Rule.backward (r : Rule) (entity_list : List Entity) (swizzle : List Nat) :
    Option (List Entity) :=
  let entities := swizzle_tuple entity_list swizzle
  let st := backwardSets r entities
  if st.1.any hasDupTagName then none
  else
    some (unswizzle_tuple entity_list
      (entities.zipWith (fun e tnt => Entity.mk e.id e.name tnt.1 tnt.2) (st.1.zip st.2))
      swizzle)

structure AiRule where
  rule : Rule
  swizzle : List Nat
deriving DecidableEq, Repr

structure AiChain where
  start : Option (List Entity)
  rules : List AiRule
deriving DecidableEq, Repr

/-- The loop of `check_chain`: run each application forward in the
stored list order, failing as soon as a step is `None` or empty. -/
def check_chain_go (es : List Entity) : List AiRule → Bool
  | [] => true
  | r :: rest =>
    match r.rule.forward es r.swizzle with
    | none => false
    | some es' => if es'.isEmpty then false else check_chain_go es' rest

/-- `check_chain(entities, ai_chain)` from `db_proto.py`: `False` for an
empty/`None` pool, otherwise replay the stored list front to back. -/
def check_chain (entities : Option (List Entity)) (chain : List AiRule) : Bool :=
  match entities with
  | none => false
  | some es => if es.isEmpty then false else check_chain_go es chain

/-- Sequential forward replay of a chain in stored list order, returning
the final pool; `none` when a step is inapplicable or produces an
empty pool. -/
def applyAll (es : List Entity) : List AiRule → Option (List Entity)
  | [] => some es
  | r :: rest =>
    match r.rule.forward es r.swizzle with
    | none => none
    | some es' => if es'.isEmpty then none else applyAll es' rest

/-- Modelled from the spec, section 4.4 (claim C1's reading): the chain
list is stored goal-first, so replay "iterates the stored list in
reverse order"; i.e. `check_chain` would replay `chain.reverse`. -/
def check_chain_spec_reversed (entities : Option (List Entity)) (chain : List AiRule) : Bool :=
  check_chain entities chain.reverse

/-- Modelled from the spec, section 4.1 (claim C5's reading): a stored
tag matches when its bind tuple "matches exactly on every position the
pattern supplies" — every position of `tag.binds` must exist in
`t.binds` and resolve to an equal id. -/
def tag_match_spec (entity : Entity) (tag : Tag) (entities : List Entity) : Bool :=
  entity.tags.any fun t =>
    t.tag == tag.tag &&
    decide (tag.binds.length ≤ t.binds.length) &&
    (List.range tag.binds.length).all fun i =>
      (entities.getD (tag.binds.getD i 0) dEnt).id == t.binds.getD i 0

/-- The behaviour `tag_match` actually implements, phrased the way the
spec phrases matching: comparison runs over the positions that both
the stored tag and the pattern supply (the zipped common prefix). -/
def tag_match_spec_zip (entity : Entity) (tag : Tag) (entities : List Entity) : Bool :=
  entity.tags.any fun t =>
    t.tag == tag.tag &&
    (List.range (min t.binds.length tag.binds.length)).all fun i =>
      (entities.getD (tag.binds.getD i 0) dEnt).id == t.binds.getD i 0

/-! ### Search strategies (`ai_search_dumb`, `ai_search_greedy`) -/

/-- `itertools.permutations(lst, k)`: all length-`k` sequences of
distinct elements of `lst`, in the lexicographic order (with respect to
the order of `lst`) that `itertools.permutations` produces. -/
def permsLen : Nat → List Nat → List (List Nat)
  | 0, _ => [[]]
  | k + 1, l => l.flatMap fun x => (permsLen k (l.erase x)).map fun p => x :: p

/-- The candidate `(rule, permutation)` applications both searches
enumerate, in source iteration order: every rule with enough entities,
every permutation, skipping action rules whose first slot is not
entity 0.  (When an action rule has zero participants the source
evaluates `permutation[0]` on an empty tuple and raises; the model
skips, and theorems about the searches exclude that case.) -/
def candList (rules : List Rule) (n : Nat) : List AiRule :=
  rules.flatMap fun rule =>
    if n < rule.num then []
    else
      (permsLen rule.num (List.range n)).flatMap fun perm =>
        if rule.action && perm.headD 1 != 0 then [] else [AiRule.mk rule perm]

/-- The synthesized anonymous start pool
`[Entity(i, 'e_{}'.format(i), (), ()) for i in range(num_entities)]`. -/
def startEntities (n : Nat) : List Entity :=
  (List.range n).map fun i => Entity.mk i ("e_" ++ toString i) [] []

/-- `dumb_step(entities, chain, depth)` from `ai_search_dumb`, with
`budget = max_depth - depth` as the structural recursion argument:
yield the current pair, then for each candidate application regress,
validate with `check_chain`, and recurse. -/
def dumbStep (rules : List Rule) (n : Nat) :
    Nat → List Entity → List AiRule → List AiChain
  | 0, entities, chain => [AiChain.mk (some entities) chain]
  | budget + 1, entities, chain =>
    AiChain.mk (some entities) chain ::
    (candList rules n).flatMap fun c =>
      match c.rule.backward entities c.swizzle with
      | none => []
      | some enext =>
        if enext.isEmpty then []
        else
          if check_chain (some enext) (AiRule.mk c.rule c.swizzle :: chain) then
            dumbStep rules n budget enext (AiRule.mk c.rule c.swizzle :: chain)
          else []

/-- `ai_search_dumb(rules, root_rule, num_entities, max_depth)`: the
list of chains the generator yields.  When the root regression returns
`None` the generator yields `AiChain(None, [root])` and then either
terminates or raises while computing the next element; the model
returns the yields delivered up to that point. -/
def ai_search_dumb (rules : List Rule) (root_rule : Rule) (n maxDepth : Nat) :
    List AiChain :=
  let rootChain := [AiRule.mk root_rule ((List.range n).take root_rule.num)]
  match root_rule.backward (startEntities n) [] with
  | none => [AiChain.mk none rootChain]
  | some start' => dumbStep rules n maxDepth start' rootChain

/-! ### The greedy search's priority frontier (`heapq`)

`heapq.heappush`/`heappq.heappop` are modelled verbatim (array heap
with `_siftdown`/`_siftup`, including `_siftup`'s choice of the right
child when the children compare as not-less).  Loops take an explicit
fuel argument that strictly exceeds the number of iterations the
source loop performs, so the models compute the same results.

Python 2 compares frontier nodes with tuple comparison:
`score`, then `entities`, then `chain`.  All orders below mirror that
lexicographic comparison.  Two caveats, both documented model choices
inside behaviour CPython leaves unspecified: `Rule` objects are
compared by memory address in the source (here: structurally), and the
order of a multi-element `tuple(set(...))` is hash-dependent (here:
the model's list order).  Every concrete heap comparison appearing in
a theorem below is decided before reaching either unspecified point. -/

/-- Python 2 lexicographic comparison of two sequences, given the
element comparison: equal heads recurse, otherwise the element
comparison decides; a strict prefix is smaller. -/
def pyLtList [DecidableEq α] (lt : α → α → Bool) : List α → List α → Bool
  | [], [] => false
  | [], _ :: _ => true
  | _ :: _, [] => false
  | x :: xs, y :: ys => if x = y then pyLtList lt xs ys else lt x y

/-- Python 2 comparison of `Tag` namedtuples. -/
def tagPyLt (a b : Tag) : Bool :=
  if a.tag = b.tag then pyLtList (fun x y : Nat => decide (x < y)) a.binds b.binds
  else decide (a.tag < b.tag)

/-- Python 2 comparison of `Entity` namedtuples. -/
def entityPyLt (a b : Entity) : Bool :=
  if a.id = b.id then
    if a.name = b.name then
      if a.tags = b.tags then pyLtList tagPyLt a.notags b.notags
      else pyLtList tagPyLt a.tags b.tags
    else decide (a.name < b.name)
  else decide (a.id < b.id)

/-- Python 2 comparison of `Pattern` namedtuples (`False < True`). -/
def patternPyLt (a b : Pattern) : Bool :=
  if a.sign = b.sign then
    if a.entity = b.entity then tagPyLt a.tag b.tag
    else decide (a.entity < b.entity)
  else !a.sign && b.sign

/-- Comparison of `Rule` objects.  CPython 2 orders distinct `Rule`
instances by memory address; the model orders them structurally.
Identical rules compare equal in both. -/
def rulePyLt (a b : Rule) : Bool :=
  if a.name = b.name then
    if a.names = b.names then
      if a.pre = b.pre then pyLtList patternPyLt a.post b.post
      else pyLtList patternPyLt a.pre b.pre
    else pyLtList (fun x y : String => decide (x < y)) a.names b.names
  else decide (a.name < b.name)

/-- Python 2 comparison of `AiRule` namedtuples. -/
def aiRulePyLt (a b : AiRule) : Bool :=
  if a.rule = b.rule then pyLtList (fun x y : Nat => decide (x < y)) a.swizzle b.swizzle
  else rulePyLt a.rule b.rule

/-- A frontier entry of `ai_search_greedy`:
`Node = namedtuple('Node', 'score entities chain')`. -/
structure Node where
  score : Nat
  entities : List Entity
  chain : List AiRule
deriving DecidableEq, Repr

/-- Python 2 comparison of `Node` namedtuples: by score, then
entities, then chain. -/
def nodePyLt (a b : Node) : Bool :=
  if a.score = b.score then
    if a.entities = b.entities then pyLtList aiRulePyLt a.chain b.chain
    else pyLtList entityPyLt a.entities b.entities
  else decide (a.score < b.score)

/-- The loop of `heapq._siftdown(heap, startpos, pos)`: walk `newitem`
up from `pos` while it is less than its parent
(`parentpos = (pos - 1) >> 1`).  The fuel is at least `pos`, which
bounds the iteration count since `pos` strictly decreases. -/
def siftdownGo (lt : α → α → Bool) (d : α) (startpos : Nat) :
    Nat → List α → Nat → α → List α
  | 0, heap, pos, newitem => heap.set pos newitem
  | fuel + 1, heap, pos, newitem =>
    if startpos < pos then
      if lt newitem (heap.getD ((pos - 1) / 2) d) then
        siftdownGo lt d startpos fuel
          (heap.set pos (heap.getD ((pos - 1) / 2) d)) ((pos - 1) / 2) newitem
      else heap.set pos newitem
    else heap.set pos newitem

/-- The child `heapq._siftup` moves up from position `pos`: the right
child when it exists and the left child is not less than it
(`not heap[childpos] < heap[rightpos]`), the left child otherwise. -/
def siftupChild (lt : α → α → Bool) (d : α) (heap : List α) (pos : Nat) : Nat :=
  if 2 * pos + 2 < heap.length &&
      !lt (heap.getD (2 * pos + 1) d) (heap.getD (2 * pos + 2) d) then
    2 * pos + 2
  else 2 * pos + 1

/-- The loop of `heapq._siftup(heap, pos)`: move the chosen child up
until a leaf position is reached; returns the heap and the final
position. -/
def siftupGo (lt : α → α → Bool) (d : α) :
    Nat → List α → Nat → List α × Nat
  | 0, heap, pos => (heap, pos)
  | fuel + 1, heap, pos =>
    if 2 * pos + 1 < heap.length then
      siftupGo lt d fuel
        (heap.set pos (heap.getD (siftupChild lt d heap pos) d))
        (siftupChild lt d heap pos)
    else (heap, pos)

/-- `heapq._siftup(heap, pos)`: run the loop, restore `newitem` at the
final position, then `_siftdown` from the original position. -/
def siftup (lt : α → α → Bool) (d : α) (heap : List α) (pos : Nat) : List α :=
  siftdownGo lt d pos (siftupGo lt d heap.length heap pos).2
    ((siftupGo lt d heap.length heap pos).1.set
      (siftupGo lt d heap.length heap pos).2 (heap.getD pos d))
    (siftupGo lt d heap.length heap pos).2 (heap.getD pos d)

/-- `heapq.heappush(heap, item)`. -/
def heappush (lt : α → α → Bool) (d : α) (heap : List α) (item : α) : List α :=
  siftdownGo lt d 0 heap.length (heap ++ [item]) heap.length item

/-- `heapq.heappop(heap)` on a non-empty heap: pop the last element,
return the root, move the last element to the root and sift up. -/
def heappop (lt : α → α → Bool) (d : α) (heap : List α) : α × List α :=
  if heap.dropLast.isEmpty then (heap.getLast?.getD d, [])
  else (heap.dropLast.getD 0 d,
    siftup lt d (heap.dropLast.set 0 (heap.getLast?.getD d)) 0)

def dNode : Node := ⟨0, [], []⟩

def dAiRule : AiRule := ⟨⟨"", [], [], []⟩, []⟩

/-- The successor nodes `ai_search_greedy` pushes after emitting a
chain, in push order: one `Node(1, entities, [ai_rule] + chain)` per
candidate application. -/
def greedySuccs (rules : List Rule) (n : Nat) (es : List Entity)
    (chain : List AiRule) : List Node :=
  (candList rules n).map fun c => Node.mk 1 es (c :: chain)

/-- The `while work:` loop of `ai_search_greedy`, with fuel: pop the
least node, regress its head application, drop it unless the chain
validates, otherwise emit it and (within the depth budget) push all
successors. -/
def greedyLoop (rules : List Rule) (n maxDepth : Nat) :
    Nat → List Node → List AiChain
  | 0, _ => []
  | fuel + 1, work =>
    if work.isEmpty then []
    else
      let pr := heappop nodePyLt dNode work
      let node := pr.1
      let rest := pr.2
      let hd := node.chain.headD dAiRule
      let entities := hd.rule.backward node.entities hd.swizzle
      if check_chain entities node.chain then
        AiChain.mk entities node.chain ::
        (if node.chain.length ≤ maxDepth then
          greedyLoop rules n maxDepth fuel
            ((greedySuccs rules n (entities.getD []) node.chain).foldl
              (heappush nodePyLt dNode) rest)
        else greedyLoop rules n maxDepth fuel rest)
      else greedyLoop rules n maxDepth fuel rest

/-- Fuel that strictly dominates the number of iterations of the
greedy loop: each node of chain length `L` accounts for
`(S+1)^(maxDepth+2-L)` iterations, where `S` is the successor count
per emission; the initial node has `L = 1`. -/
def greedyFuel (rules : List Rule) (n maxDepth : Nat) : Nat :=
  ((candList rules n).length + 1) ^ (maxDepth + 2)

/-- `ai_search_greedy(rules, root_rule, num_entities, max_depth)`: the
list of chains the generator yields. -/
def ai_search_greedy (rules : List Rule) (root_rule : Rule) (n maxDepth : Nat) :
    List AiChain :=
  greedyLoop rules n maxDepth (greedyFuel rules n maxDepth)
    [Node.mk 0 (startEntities n) [AiRule.mk root_rule (List.range root_rule.num)]]

/-! ### Concrete instances used by counterexamples and witnesses -/

/-- A rule whose preconditions require `foo` both present and absent on
the same participant: its backward regression succeeds (one `foo` in
`tags`, one in `notags`) but the regressed pool can never replay. -/
def cexRulePm : Rule :=
  ⟨"r", ["x"], [⟨true, 0, ⟨"foo", []⟩⟩, ⟨false, 0, ⟨"foo", []⟩⟩], []⟩

/-- A rule establishing `p` on its single participant. -/
def cexRuleA : Rule := ⟨"a", ["x"], [], [⟨true, 0, ⟨"p", []⟩⟩]⟩

/-- A rule requiring `p` on its single participant. -/
def cexRuleB : Rule := ⟨"b", ["x"], [⟨true, 0, ⟨"p", []⟩⟩], []⟩

/-- A rule requiring a weak `hold` (no binds) and establishing
`hold(d)`: forward from an entity already holding something else leaves
two `hold` tags, making the round-trip regression impossible. -/
def cexRuleC4 : Rule :=
  ⟨"r", ["x", "d"], [⟨true, 0, ⟨"hold", []⟩⟩], [⟨true, 0, ⟨"hold", [1]⟩⟩]⟩

/-- A rule requiring `foo` on its single participant; regressing it
simply asserts `foo`, so every candidate chain of it validates. -/
def cexRuleFoo : Rule := ⟨"r", ["x"], [⟨true, 0, ⟨"foo", []⟩⟩], []⟩

/-! ### C5 — `tag_match` bind comparison -/

theorem zip_all_eq_range_min_all (l1 l2 : List Nat) (f : Nat × Nat → Bool) :
    (l1.zip l2).all f =
      (List.range (min l1.length l2.length)).all (fun i => f (l1.getD i 0, l2.getD i 0)) := by
  induction l1 generalizing l2 with
  | nil => simp
  | cons a l1 ih =>
    cases l2 with
    | nil => simp
    | cons b l2 =>
      simp only [List.zip_cons_cons, List.all_cons, List.length_cons, Nat.succ_min_succ,
        List.range_succ_eq_map, List.all_map, List.getD_cons_zero]
      rw [ih l2]
      rfl

/-- C5 (amended): `tag_match(entity, tag, entities)` is true iff some
stored tag has the pattern's name and agrees with the resolved pattern
binds on every position that both the stored tag and the pattern
supply (`zip` truncates to the common prefix); in particular a pattern
supplying fewer binds than the stored tag — and equally a stored tag
supplying fewer binds than the pattern — is allowed, with only the
common positions checked. -/
theorem claim_C5_amended (e : Entity) (tag : Tag) (pool : List Entity) :
    tag_match e tag pool = tag_match_spec_zip e tag pool := by
  simp only [tag_match, tag_match_spec_zip, zip_all_eq_range_min_all]

/-- C5 (counterexample): the claim demands an exact match on every
position the pattern supplies, but with a stored `hold` tag carrying no
binds and a pattern `hold(0)` supplying one, the source's `zip`
truncates away the supplied position and `tag_match` returns true where
the claimed reading returns false. -/
theorem claim_C5_counterexample :
    tag_match ⟨0, "x", [⟨"hold", []⟩], []⟩ ⟨"hold", [0]⟩ [⟨0, "x", [⟨"hold", []⟩], []⟩] = true ∧
    tag_match_spec ⟨0, "x", [⟨"hold", []⟩], []⟩ ⟨"hold", [0]⟩ [⟨0, "x", [⟨"hold", []⟩], []⟩] = false := by
  exact ⟨rfl, rfl⟩

/-! ### C1 — `check_chain` replay order -/

theorem check_chain_go_eq_applyAll (chain : List AiRule) (es : List Entity) :
    check_chain_go es chain = (applyAll es chain).isSome := by
  induction chain generalizing es with
  | nil => rfl
  | cons r rest ih =>
    simp only [check_chain_go, applyAll]
    cases r.rule.forward es r.swizzle with
    | none => rfl
    | some es' =>
      by_cases h : es'.isEmpty <;> simp [h, ih]

/-- C1 (amended): `check_chain(entities, chain)` replays the chain's
applications in the *stored* list order — the head of the list is the
most recently prepended, temporally earliest application, so stored
order *is* chronological order (no reversal happens or is needed) —
and it returns true iff the starting pool is a non-empty pool and the
stored-order replay `applyAll` succeeds at every step, i.e. false iff
the pool is `None`/empty or some forward step is inapplicable or
returns an empty pool. -/
theorem claim_C1_amended (es : Option (List Entity)) (chain : List AiRule) :
    check_chain es chain = true ↔
      ∃ es0, es = some es0 ∧ es0 ≠ [] ∧ (applyAll es0 chain).isSome = true := by
  cases es with
  | none => simp [check_chain]
  | some es0 =>
    simp only [check_chain, check_chain_go_eq_applyAll]
    by_cases h : es0.isEmpty
    · simp_all [List.isEmpty_iff]
    · simp_all [List.isEmpty_iff]

/-- C1 (counterexample): a two-step chain whose head must run first.
`cexRuleA` establishes `p`, `cexRuleB` requires it.  On the stored
chain `[A, B]` the source's `check_chain` replays `A` then `B` and
succeeds; the claim's reading (iterate the stored list in reverse)
would replay `B` first, fail its precondition, and return false. -/
theorem claim_C1_counterexample :
    check_chain (some [⟨0, "e_0", [], []⟩]) [⟨cexRuleA, [0]⟩, ⟨cexRuleB, [0]⟩] = true ∧
    check_chain_spec_reversed (some [⟨0, "e_0", [], []⟩]) [⟨cexRuleA, [0]⟩, ⟨cexRuleB, [0]⟩] = false := by
  exact ⟨rfl, rfl⟩

/-! ### C3 — `backward`'s unique failure mode -/

/-- Every per-entity tag list in a state is duplicate-free. -/
def AllNodup (l : List (List Tag)) : Prop := ∀ ts ∈ l, ts.Nodup

theorem getD_nodup {l : List (List Tag)} (h : AllNodup l) (i : Nat) :
    (l.getD i []).Nodup := by
  by_cases hi : i < l.length
  · have hmem : l.getD i [] ∈ l := by
      rw [List.getD_eq_getElem?_getD, List.getElem?_eq_getElem hi, Option.getD_some]
      exact List.getElem_mem hi
    exact h _ hmem
  · rw [List.getD_eq_getElem?_getD, List.getElem?_eq_none (Nat.le_of_not_lt hi),
      Option.getD_none]
    exact List.nodup_nil

theorem allNodup_set {l : List (List Tag)} {ts : List Tag} (h : AllNodup l)
    (hts : ts.Nodup) (i : Nat) : AllNodup (l.set i ts) := by
  intro us hus
  rcases List.mem_or_eq_of_mem_set hus with h' | rfl
  · exact h _ h'
  · exact hts

theorem allNodup_applyPostBack (ents : List Entity)
    (st : List (List Tag) × List (List Tag)) (p : Pattern)
    (h1 : AllNodup st.1) (h2 : AllNodup st.2) :
    AllNodup (applyPostBack ents st p).1 ∧ AllNodup (applyPostBack ents st p).2 := by
  cases hs : p.sign <;> simp only [applyPostBack, hs, if_true, if_false, Bool.false_eq_true]
  · exact ⟨h1, allNodup_set h2 ((getD_nodup h2 p.entity).erase _) p.entity⟩
  · exact ⟨allNodup_set h1 ((getD_nodup h1 p.entity).erase _) p.entity, h2⟩

theorem allNodup_applyPreBack (ents : List Entity)
    (st : List (List Tag) × List (List Tag)) (p : Pattern)
    (h1 : AllNodup st.1) (h2 : AllNodup st.2) :
    AllNodup (applyPreBack ents st p).1 ∧ AllNodup (applyPreBack ents st p).2 := by
  cases hs : p.sign <;> simp only [applyPreBack, hs, if_true, if_false, Bool.false_eq_true]
  · exact ⟨h1, allNodup_set h2 ((getD_nodup h2 p.entity).insert) p.entity⟩
  · exact ⟨allNodup_set h1 ((getD_nodup h1 p.entity).insert) p.entity, h2⟩

theorem allNodup_foldl_postBack (ents : List Entity) (ps : List Pattern)
    (st : List (List Tag) × List (List Tag))
    (h1 : AllNodup st.1) (h2 : AllNodup st.2) :
    AllNodup (ps.foldl (applyPostBack ents) st).1 ∧
      AllNodup (ps.foldl (applyPostBack ents) st).2 := by
  induction ps generalizing st with
  | nil => exact ⟨h1, h2⟩
  | cons p ps ih =>
    obtain ⟨j1, j2⟩ := allNodup_applyPostBack ents st p h1 h2
    exact ih _ j1 j2

theorem allNodup_foldl_preBack (ents : List Entity) (ps : List Pattern)
    (st : List (List Tag) × List (List Tag))
    (h1 : AllNodup st.1) (h2 : AllNodup st.2) :
    AllNodup (ps.foldl (applyPreBack ents) st).1 ∧
      AllNodup (ps.foldl (applyPreBack ents) st).2 := by
  induction ps generalizing st with
  | nil => exact ⟨h1, h2⟩
  | cons p ps ih =>
    obtain ⟨j1, j2⟩ := allNodup_applyPreBack ents st p h1 h2
    exact ih _ j1 j2

theorem allNodup_backwardSets (r : Rule) (ents : List Entity) :
    AllNodup (backwardSets r ents).1 ∧ AllNodup (backwardSets r ents).2 := by
  unfold backwardSets
  have hinit : ∀ l : List Entity, AllNodup (l.map fun e => (Entity.tags e).dedup) := by
    intro l ts hts
    rcases List.mem_map.1 hts with ⟨e, _, rfl⟩
    exact List.nodup_dedup _
  have hinit2 : ∀ l : List Entity, AllNodup (l.map fun e => (Entity.notags e).dedup) := by
    intro l ts hts
    rcases List.mem_map.1 hts with ⟨e, _, rfl⟩
    exact List.nodup_dedup _
  obtain ⟨j1, j2⟩ := allNodup_foldl_postBack ents r.post (_, _)
    (hinit ents) (hinit2 ents)
  exact allNodup_foldl_preBack ents r.pre _ j1 j2

theorem two_le_countP {p : Tag → Bool} {ts : List Tag} {t1 t2 : Tag}
    (h1 : t1 ∈ ts) (h2 : t2 ∈ ts) (hne : t1 ≠ t2) (hp1 : p t1) (hp2 : p t2) :
    1 < ts.countP p := by
  rcases List.append_of_mem h1 with ⟨s, u, rfl⟩
  have h2' : t2 ∈ s ∨ t2 ∈ u := by
    rcases List.mem_append.1 h2 with h | h
    · exact Or.inl h
    · rcases List.mem_cons.1 h with rfl | h
      · exact absurd rfl hne.symm
      · exact Or.inr h
  rw [List.countP_append, List.countP_cons_of_pos _ _ hp1]
  rcases h2' with h | h
  · have : 0 < s.countP p := List.countP_pos_iff.2 ⟨t2, h, hp2⟩
    omega
  · have : 0 < u.countP p := List.countP_pos_iff.2 ⟨t2, h, hp2⟩
    omega

theorem hasDupTagName_iff {ts : List Tag} (h : ts.Nodup) :
    hasDupTagName ts = true ↔
      ∃ t1 ∈ ts, ∃ t2 ∈ ts, t1.tag = t2.tag ∧ t1.binds ≠ t2.binds := by
  unfold hasDupTagName
  rw [List.any_eq_true]
  constructor
  · rintro ⟨t, ht, hcount⟩
    rw [decide_eq_true_iff] at hcount
    have hfl : 1 < (ts.filter fun u => u.tag == t.tag).length := by
      rwa [List.countP_eq_length_filter] at hcount
    match hfil : ts.filter fun u => u.tag == t.tag with
    | [] => rw [hfil] at hfl; simp at hfl
    | [a] => rw [hfil] at hfl; simp at hfl
    | a :: b :: rest =>
      have ha : a ∈ ts.filter fun u => u.tag == t.tag := by rw [hfil]; simp
      have hb : b ∈ ts.filter fun u => u.tag == t.tag := by rw [hfil]; simp
      have hnd : (ts.filter fun u => u.tag == t.tag).Nodup := h.filter _
      rw [hfil] at hnd
      have hab : a ≠ b := by
        intro hcontra
        rw [hcontra] at hnd
        exact (List.nodup_cons.1 hnd).1 (List.mem_cons_self _ _)
      have ha2 : a.tag = t.tag := by
        have := (List.mem_filter.1 ha).2
        exact beq_iff_eq.1 this
      have hb2 : b.tag = t.tag := by
        have := (List.mem_filter.1 hb).2
        exact beq_iff_eq.1 this
      refine ⟨a, (List.mem_filter.1 ha).1, b, (List.mem_filter.1 hb).1,
        ha2.trans hb2.symm, ?_⟩
      intro hcontra
      apply hab
      cases a
      cases b
      simp_all
  · rintro ⟨t1, h1, t2, h2, htag, hbinds⟩
    have hne : t1 ≠ t2 := by
      intro hcontra; exact hbinds (by rw [hcontra])
    refine ⟨t1, h1, ?_⟩
    rw [decide_eq_true_iff]
    exact two_le_countP h1 h2 hne (beq_iff_eq.2 rfl) (beq_iff_eq.2 htag.symm)

/-- C3: assuming the arity check passes (and the rule's pattern indices
and the swizzle are in range, so the source raises no `IndexError`),
`backward(entity_pool, assignment)` returns `None` iff, after
discarding the resolved postcondition tags and adding the resolved
precondition tags, some rule-local participant's resulting tag set
holds two tags sharing a name with differing bind tuples; otherwise it
returns a pool — there is no other failure mode. -/
theorem claim_C3 (r : Rule) (pool : List Entity) (swz : List Nat)
    (harity : r.arityFail pool swz = false)
    (hwf : ∀ p ∈ r.pre ++ r.post, p.entity < r.num ∧ ∀ b ∈ p.tag.binds, b < r.num)
    (hswz : ∀ i ∈ swz, i < pool.length) :
    r.backward pool swz = none ↔
      ∃ ts ∈ (backwardSets r (swizzle_tuple pool swz)).1,
        ∃ t1 ∈ ts, ∃ t2 ∈ ts, t1.tag = t2.tag ∧ t1.binds ≠ t2.binds := by
  unfold Rule.backward
  by_cases h : (backwardSets r (swizzle_tuple pool swz)).1.any hasDupTagName
  · simp only [h, if_true, true_iff]
    rcases List.any_eq_true.1 h with ⟨ts, hts, hdup⟩
    exact ⟨ts, hts,
      (hasDupTagName_iff ((allNodup_backwardSets r _).1 ts hts)).1 hdup⟩
  · simp only [h, if_false, Bool.false_eq_true]
    constructor
    · intro hcontra; simp at hcontra
    · rintro ⟨ts, hts, t1, ht1, t2, ht2, htag, hbinds⟩
      exact absurd (List.any_eq_true.2 ⟨ts, hts,
        (hasDupTagName_iff ((allNodup_backwardSets r _).1 ts hts)).2
          ⟨t1, ht1, t2, ht2, htag, hbinds⟩⟩) (by simp_all)

/-- C3 witness: the hypotheses hold and the theorem applies at the
round-trip pool of `cexRuleC4`, where the regression is indeed
contradictory (`hold(0)` versus the bare pre-tag `hold`). -/
theorem claim_C3_witness :
    (cexRuleC4.arityFail [⟨0, "x", [⟨"hold", [0]⟩, ⟨"hold", [1]⟩], []⟩, ⟨1, "d", [], []⟩] [0, 1] = false) ∧
    (cexRuleC4.backward [⟨0, "x", [⟨"hold", [0]⟩, ⟨"hold", [1]⟩], []⟩, ⟨1, "d", [], []⟩] [0, 1] = none ↔
      ∃ ts ∈ (backwardSets cexRuleC4
          (swizzle_tuple [⟨0, "x", [⟨"hold", [0]⟩, ⟨"hold", [1]⟩], []⟩, ⟨1, "d", [], []⟩] [0, 1])).1,
        ∃ t1 ∈ ts, ∃ t2 ∈ ts, t1.tag = t2.tag ∧ t1.binds ≠ t2.binds) :=
  ⟨by decide, claim_C3 cexRuleC4 _ _ (by decide) (by decide) (by decide)⟩

/-! ### List plumbing shared by the rule-engine theorems -/

theorem getD_set_ne {α : Type} {l : List α} {d : α} {i j : Nat} (h : i ≠ j) (a : α) :
    (l.set i a).getD j d = l.getD j d := by
  simp [List.getD_eq_getElem?_getD, List.getElem?_set_ne h]

theorem getD_set_self' {α : Type} {l : List α} {d : α} {i : Nat} (h : i < l.length) (a : α) :
    (l.set i a).getD i d = a := by
  simp [List.getD_eq_getElem?_getD, List.getElem?_set_self h]

theorem getD_map_lt {α β : Type} (f : α → β) {l : List α} {i : Nat} (h : i < l.length)
    (d : β) (d' : α) : (l.map f).getD i d = f (l.getD i d') := by
  simp [List.getD_eq_getElem?_getD, List.getElem?_map,
    List.getElem?_eq_getElem h, List.getElem?_eq_getElem (l := l.map f) (by simpa using h)]

theorem getD_oob {α : Type} {l : List α} {d : α} {i : Nat} (h : l.length ≤ i) :
    l.getD i d = d := by
  simp [List.getD_eq_getElem?_getD, List.getElem?_eq_none h]

theorem getD_eq_getElem {α : Type} {l : List α} {d : α} {i : Nat} (h : i < l.length) :
    l.getD i d = l[i] := by
  simp [List.getD_eq_getElem?_getD, List.getElem?_eq_getElem h]

theorem foldl_set_length (pairs : List (Entity × Nat)) (base : List Entity) :
    (pairs.foldl (fun c ei => c.set ei.2 ei.1) base).length = base.length := by
  induction pairs generalizing base with
  | nil => rfl
  | cons p ps ih => rw [List.foldl_cons, ih, List.length_set]

theorem foldl_set_getD_not_mem (pairs : List (Entity × Nat)) (base : List Entity)
    (pos : Nat) (h : ∀ ei ∈ pairs, ei.2 ≠ pos) :
    (pairs.foldl (fun c ei => c.set ei.2 ei.1) base).getD pos dEnt = base.getD pos dEnt := by
  induction pairs generalizing base with
  | nil => rfl
  | cons p ps ih =>
    rw [List.foldl_cons, ih _ (fun ei hei => h ei (List.mem_cons_of_mem _ hei)),
      getD_set_ne (h p (List.mem_cons_self _ _))]

theorem unswizzle_length (orig new : List Entity) (swz : List Nat) (hne : ¬swz.isEmpty) :
    (unswizzle_tuple orig new swz).length = orig.length := by
  rw [unswizzle_tuple, if_neg (by simp_all)]
  exact foldl_set_length _ _

theorem unswizzle_getD_not_mem (orig new : List Entity) (swz : List Nat) (pos : Nat)
    (hpos : pos ∉ swz) (hne : ¬swz.isEmpty) :
    (unswizzle_tuple orig new swz).getD pos dEnt = orig.getD pos dEnt := by
  rw [unswizzle_tuple, if_neg (by simp_all)]
  refine foldl_set_getD_not_mem _ _ _ ?_
  intro ei hei heq
  exact hpos (heq ▸ (List.of_mem_zip hei).2)

theorem foldl_set_getD_nodup (new : List Entity) (swz : List Nat) (base : List Entity)
    (hnd : swz.Nodup) (hlen : swz.length ≤ new.length)
    (hrange : ∀ i ∈ swz, i < base.length) :
    ∀ k, k < swz.length →
      ((new.zip swz).foldl (fun c ei => c.set ei.2 ei.1) base).getD (swz.getD k 0) dEnt =
        new.getD k dEnt := by
  induction new generalizing swz base with
  | nil =>
    intro k hk
    cases swz with
    | nil => simp at hk
    | cons i swz' => simp at hlen
  | cons a new' ih =>
    intro k hk
    cases swz with
    | nil => simp at hk
    | cons i swz' =>
      rw [List.zip_cons_cons, List.foldl_cons]
      cases k with
      | zero =>
        rw [List.getD_cons_zero, List.getD_cons_zero]
        rw [foldl_set_getD_not_mem _ _ _ ?notmem]
        · exact getD_set_self' (hrange i (List.mem_cons_self _ _)) a
        case notmem =>
          intro ei hei heq
          exact (List.nodup_cons.1 hnd).1 (heq ▸ (List.of_mem_zip hei).2)
      | succ k' =>
        rw [List.getD_cons_succ, List.getD_cons_succ]
        exact ih swz' _ (List.nodup_cons.1 hnd).2 (by simpa using hlen)
          (fun j hj => by rw [List.length_set]; exact hrange j (List.mem_cons_of_mem _ hj))
          k' (by simpa using hk)

theorem swizzle_unswizzle (orig new : List Entity) (swz : List Nat)
    (hnd : swz.Nodup) (hlen : new.length = swz.length)
    (hrange : ∀ i ∈ swz, i < orig.length) :
    swizzle_tuple (unswizzle_tuple orig new swz) swz = new := by
  by_cases hne : swz.isEmpty
  · have h1 : swz = [] := by simpa [List.isEmpty_iff] using hne
    subst h1
    rw [unswizzle_tuple, swizzle_tuple]
    simp
  · rw [swizzle_tuple, if_neg hne, unswizzle_tuple, if_neg hne]
    apply List.ext_getElem
    · simpa using hlen.symm
    · intro k hk1 hk2
      have hk : k < swz.length := by simpa using hk1
      have h1 := foldl_set_getD_nodup new swz orig hnd (le_of_eq hlen.symm) hrange k hk
      rw [getD_eq_getElem hk, getD_eq_getElem hk2] at h1
      rw [List.getElem_map]
      exact h1

theorem length_foldl_applyPost (ents : List Entity) (ps : List Pattern)
    (acc : List (List Tag)) : (ps.foldl (applyPost ents) acc).length = acc.length := by
  induction ps generalizing acc with
  | nil => rfl
  | cons p ps ih =>
    rw [List.foldl_cons, ih]
    unfold applyPost
    by_cases hs : p.sign <;> simp [hs]

/-- Membership in the forward postcondition fold: a tag is either
carried over from the initial working set or added verbatim by some
positive postcondition on that participant. -/
theorem mem_foldl_applyPost {ents : List Entity} {ps : List Pattern}
    {acc : List (List Tag)} {k : Nat} {t : Tag}
    (ht : t ∈ (ps.foldl (applyPost ents) acc).getD k []) :
    t ∈ acc.getD k [] ∨ ∃ p ∈ ps, p.sign = true ∧ p.entity = k ∧
      t = ⟨p.tag.tag, resolveBinds ents p.tag.binds⟩ := by
  induction ps generalizing acc with
  | nil => exact Or.inl ht
  | cons p ps ih =>
    rw [List.foldl_cons] at ht
    rcases ih ht with hmem | ⟨q, hq, hrest⟩
    · by_cases hklen : p.entity < acc.length
      · by_cases hke : p.entity = k
        · subst hke
          unfold applyPost at hmem
          by_cases hs : p.sign
          · rw [if_pos hs, getD_set_self' hklen] at hmem
            rcases List.mem_insert_iff.1 hmem with rfl | hmem
            · exact Or.inr ⟨p, List.mem_cons_self _ _, by simp [hs]⟩
            · exact Or.inl hmem
          · rw [if_neg hs, getD_set_self' hklen] at hmem
            exact Or.inl (List.mem_filter.1 hmem).1
        · unfold applyPost at hmem
          by_cases hs : p.sign <;>
            simp only [hs, if_true, if_false, Bool.false_eq_true] at hmem <;>
            rw [getD_set_ne hke] at hmem <;> exact Or.inl hmem
      · unfold applyPost at hmem
        have hset : ∀ x : List Tag, acc.set p.entity x = acc :=
          fun x => List.set_eq_of_length_le (by omega)
        by_cases hs : p.sign <;>
          simp only [hs, if_true, if_false, Bool.false_eq_true, hset] at hmem <;>
          exact Or.inl hmem
    · exact Or.inr ⟨q, List.mem_cons_of_mem _ hq, hrest⟩

/-! ### C7 — transient-tag stripping -/

/-- C7: in every successful forward application, any transient tag
(name containing `'!'`) on a resulting participant was explicitly
added by a positive postcondition — the pre-existing transient tags
are stripped — while all preconditions of the same step were evaluated
against the original, unstripped participants. -/
theorem claim_C7 (r : Rule) (pool : List Entity) (swz : List Nat) (res : List Entity)
    (hnd : swz.Nodup) (hrange : ∀ i ∈ swz, i < pool.length)
    (hfwd : r.forward pool swz = some res) :
    (∀ k, k < (swizzle_tuple pool swz).length →
      ∀ t, t ∈ ((swizzle_tuple res swz).getD k dEnt).tags → t.tag.data.contains '!' = true →
      ∃ p ∈ r.post, p.sign = true ∧ p.entity = k ∧
        t = ⟨p.tag.tag, resolveBinds (swizzle_tuple pool swz) p.tag.binds⟩) ∧
    r.pre.all (fun p => pattern_match p (swizzle_tuple pool swz)) = true := by
  unfold Rule.forward at hfwd
  by_cases hpre : r.pre.all (fun p => pattern_match p (swizzle_tuple pool swz))
  case neg => rw [if_neg hpre] at hfwd; exact absurd hfwd (by simp)
  rw [if_pos hpre] at hfwd
  refine ⟨?_, hpre⟩
  set ents := swizzle_tuple pool swz with hents
  set tags0 := ents.map (fun e => (e.tags.filter fun t => !t.tag.data.contains '!').dedup)
    with htags0
  set tgs := r.post.foldl (applyPost ents) tags0 with htgs
  set new := ents.zipWith (fun e t => Entity.mk e.id e.name t []) tgs with hnew
  have hlen0 : tags0.length = ents.length := by rw [htags0, List.length_map]
  have hlent : tgs.length = ents.length := by rw [htgs, length_foldl_applyPost, hlen0]
  have hlennew : new.length = ents.length := by
    rw [hnew, List.length_zipWith, hlent, Nat.min_self]
  have hres : swizzle_tuple res swz = new := by
    by_cases hemp : swz.isEmpty
    · have h1 : swz = [] := by simpa [List.isEmpty_iff] using hemp
      subst h1
      have hrn : res = new := by
        have h2 := hfwd
        simp only [unswizzle_tuple, List.isEmpty_nil, if_true, Option.some_inj] at h2
        exact h2.symm
      rw [hrn, swizzle_tuple]
      simp
    · have hlens : ents.length = swz.length := by
        rw [hents, swizzle_tuple, if_neg hemp, List.length_map]
      have : res = unswizzle_tuple pool new swz := (Option.some_inj.1 hfwd).symm
      rw [this]
      exact swizzle_unswizzle pool new swz hnd (by omega) hrange
  rw [hres]
  intro k hklen t ht hbang
  have hke : k < ents.length := hklen
  have hk : k < new.length := by omega
  have hkt : k < tgs.length := by omega
  have hent : new.getD k dEnt = Entity.mk (ents[k]).id (ents[k]).name (tgs.getD k []) [] := by
    rw [hnew, getD_eq_getElem hk, List.getElem_zipWith]
    rw [getD_eq_getElem hkt]
  rw [hent] at ht
  simp only at ht
  rcases mem_foldl_applyPost (htgs ▸ ht) with hmem | hgoal
  · rw [htags0, getD_map_lt _ hke [] dEnt] at hmem
    have := (List.mem_filter.1 (List.mem_dedup.1 hmem)).2
    rw [hbang] at this
    simp at this
  · exact hgoal

/-- A rule whose postcondition establishes `p`; applied forward to an
entity carrying the transient tag `hurt!` it strips the transient. -/
def cexRuleW : Rule := ⟨"w", ["x"], [], [⟨true, 0, ⟨"p", []⟩⟩]⟩

/-- C7 witness: forward application of `cexRuleW` at a pool whose
participant carries `hurt!`; the instantiated theorem confirms the
transient is gone and preconditions were checked unstripped. -/
theorem claim_C7_witness :
    (cexRuleW.forward [⟨0, "x", [⟨"hurt!", []⟩], []⟩] [0] =
      some [⟨0, "x", [⟨"p", []⟩], []⟩]) ∧
    ((∀ k, k < (swizzle_tuple [⟨0, "x", [⟨"hurt!", []⟩], []⟩] [0]).length →
      ∀ t, t ∈ ((swizzle_tuple [⟨0, "x", [⟨"p", []⟩], []⟩] [0]).getD k dEnt).tags →
        t.tag.data.contains '!' = true →
      ∃ p ∈ cexRuleW.post, p.sign = true ∧ p.entity = k ∧
        t = ⟨p.tag.tag,
          resolveBinds (swizzle_tuple [⟨0, "x", [⟨"hurt!", []⟩], []⟩] [0]) p.tag.binds⟩) ∧
    cexRuleW.pre.all
      (fun p => pattern_match p (swizzle_tuple [⟨0, "x", [⟨"hurt!", []⟩], []⟩] [0])) = true) :=
  ⟨by decide, claim_C7 cexRuleW _ [0] _ (by decide) (by decide) (by decide)⟩

/-! ### Fold characterizations for `Rule.backward`'s state -/

theorem applyPostBack_len (ents : List Entity) (st : List (List Tag) × List (List Tag))
    (p : Pattern) : (applyPostBack ents st p).1.length = st.1.length ∧
      (applyPostBack ents st p).2.length = st.2.length := by
  cases hs : p.sign <;> simp [applyPostBack, hs]

theorem applyPreBack_len (ents : List Entity) (st : List (List Tag) × List (List Tag))
    (p : Pattern) : (applyPreBack ents st p).1.length = st.1.length ∧
      (applyPreBack ents st p).2.length = st.2.length := by
  cases hs : p.sign <;> simp [applyPreBack, hs]

theorem foldl_postBack_len (ents : List Entity) (ps : List Pattern)
    (st : List (List Tag) × List (List Tag)) :
    (ps.foldl (applyPostBack ents) st).1.length = st.1.length ∧
      (ps.foldl (applyPostBack ents) st).2.length = st.2.length := by
  induction ps generalizing st with
  | nil => exact ⟨rfl, rfl⟩
  | cons p ps ih =>
    obtain ⟨j1, j2⟩ := ih (applyPostBack ents st p)
    obtain ⟨i1, i2⟩ := applyPostBack_len ents st p
    exact ⟨by rw [List.foldl_cons, j1, i1], by rw [List.foldl_cons, j2, i2]⟩

theorem foldl_preBack_len (ents : List Entity) (ps : List Pattern)
    (st : List (List Tag) × List (List Tag)) :
    (ps.foldl (applyPreBack ents) st).1.length = st.1.length ∧
      (ps.foldl (applyPreBack ents) st).2.length = st.2.length := by
  induction ps generalizing st with
  | nil => exact ⟨rfl, rfl⟩
  | cons p ps ih =>
    obtain ⟨j1, j2⟩ := ih (applyPreBack ents st p)
    obtain ⟨i1, i2⟩ := applyPreBack_len ents st p
    exact ⟨by rw [List.foldl_cons, j1, i1], by rw [List.foldl_cons, j2, i2]⟩

/-- Membership in the `notags` side after the backward postcondition
phase: exactly the initial members not discarded by a resolved negative
postcondition on that participant. -/
theorem mem_postBack_notags {ents : List Entity} {ps : List Pattern}
    {st : List (List Tag) × List (List Tag)} {k : Nat} {t : Tag}
    (hnd1 : AllNodup st.1) (hnd2 : AllNodup st.2) :
    (t ∈ (ps.foldl (applyPostBack ents) st).2.getD k [] ↔
      t ∈ st.2.getD k [] ∧ ∀ p ∈ ps, ¬(p.sign = false ∧ p.entity = k ∧
        t = ⟨p.tag.tag, resolveBinds ents p.tag.binds⟩)) := by
  induction ps generalizing st with
  | nil => simp
  | cons p ps ih =>
    obtain ⟨j1, j2⟩ := allNodup_applyPostBack ents st p hnd1 hnd2
    rw [List.foldl_cons, ih j1 j2]
    cases hs : p.sign with
    | true =>
      have h2 : (applyPostBack ents st p).2 = st.2 := by simp [applyPostBack, hs]
      rw [h2]
      constructor
      · rintro ⟨hm, hall⟩
        refine ⟨hm, fun q hq => ?_⟩
        rcases List.mem_cons.1 hq with rfl | hq'
        · rintro ⟨hq1, -⟩; rw [hs] at hq1; exact absurd hq1 (by simp)
        · exact hall q hq'
      · rintro ⟨hm, hall⟩
        exact ⟨hm, fun q hq => hall q (List.mem_cons_of_mem _ hq)⟩
    | false =>
      have h2 : (applyPostBack ents st p).2 =
          st.2.set p.entity ((st.2.getD p.entity []).erase
            ⟨p.tag.tag, resolveBinds ents p.tag.binds⟩) := by
        simp [applyPostBack, hs]
      rw [h2]
      by_cases hklen : p.entity < st.2.length
      · by_cases hke : p.entity = k
        · subst hke
          rw [getD_set_self' hklen]
          rw [(getD_nodup hnd2 p.entity).mem_erase_iff]
          constructor
          · rintro ⟨⟨hne, hm⟩, hall⟩
            refine ⟨hm, fun q hq => ?_⟩
            rcases List.mem_cons.1 hq with rfl | hq'
            · rintro ⟨-, -, ht⟩; exact hne ht
            · exact hall q hq'
          · rintro ⟨hm, hall⟩
            refine ⟨⟨?_, hm⟩, fun q hq => hall q (List.mem_cons_of_mem _ hq)⟩
            intro ht
            exact hall p (List.mem_cons_self _ _) ⟨hs, rfl, ht⟩
        · rw [getD_set_ne hke]
          constructor
          · rintro ⟨hm, hall⟩
            refine ⟨hm, fun q hq => ?_⟩
            rcases List.mem_cons.1 hq with rfl | hq'
            · rintro ⟨-, hq2, -⟩; exact hke hq2
            · exact hall q hq'
          · rintro ⟨hm, hall⟩
            exact ⟨hm, fun q hq => hall q (List.mem_cons_of_mem _ hq)⟩
      · rw [List.set_eq_of_length_le (by omega)]
        by_cases hke : p.entity = k
        · subst hke
          rw [getD_oob (by omega)]
          simp
        · constructor
          · rintro ⟨hm, hall⟩
            refine ⟨hm, fun q hq => ?_⟩
            rcases List.mem_cons.1 hq with rfl | hq'
            · rintro ⟨-, hq2, -⟩; exact hke hq2
            · exact hall q hq'
          · rintro ⟨hm, hall⟩
            exact ⟨hm, fun q hq => hall q (List.mem_cons_of_mem _ hq)⟩

/-- Membership in the `notags` side after the backward precondition
phase: the resolved negative preconditions of that participant are
added to whatever was already there. -/
theorem mem_preBack_notags {ents : List Entity} {ps : List Pattern}
    {st : List (List Tag) × List (List Tag)} {k : Nat} {t : Tag}
    (hk : k < st.2.length) :
    (t ∈ (ps.foldl (applyPreBack ents) st).2.getD k [] ↔
      (∃ p ∈ ps, p.sign = false ∧ p.entity = k ∧
        t = ⟨p.tag.tag, resolveBinds ents p.tag.binds⟩) ∨ t ∈ st.2.getD k []) := by
  induction ps generalizing st with
  | nil => simp
  | cons p ps ih =>
    have hk' : k < (applyPreBack ents st p).2.length := by
      rw [(applyPreBack_len ents st p).2]; exact hk
    rw [List.foldl_cons, ih hk']
    cases hs : p.sign with
    | true =>
      have h2 : (applyPreBack ents st p).2 = st.2 := by simp [applyPreBack, hs]
      rw [h2]
      constructor
      · rintro (⟨q, hq, hrest⟩ | hm)
        · exact Or.inl ⟨q, List.mem_cons_of_mem _ hq, hrest⟩
        · exact Or.inr hm
      · rintro (⟨q, hq, hq1, hrest⟩ | hm)
        · rcases List.mem_cons.1 hq with rfl | hq'
          · rw [hs] at hq1; exact absurd hq1 (by simp)
          · exact Or.inl ⟨q, hq', hq1, hrest⟩
        · exact Or.inr hm
    | false =>
      have h2 : (applyPreBack ents st p).2 =
          st.2.set p.entity (List.insert ⟨p.tag.tag, resolveBinds ents p.tag.binds⟩
            (st.2.getD p.entity [])) := by
        simp [applyPreBack, hs]
      rw [h2]
      by_cases hke : p.entity = k
      · subst hke
        rw [getD_set_self' hk, List.mem_insert_iff]
        constructor
        · rintro (⟨q, hq, hrest⟩ | rfl | hm)
          · exact Or.inl ⟨q, List.mem_cons_of_mem _ hq, hrest⟩
          · exact Or.inl ⟨p, List.mem_cons_self _ _, hs, rfl, rfl⟩
          · exact Or.inr hm
        · rintro (⟨q, hq, hq1, hq2, hq3⟩ | hm)
          · rcases List.mem_cons.1 hq with rfl | hq'
            · exact Or.inr (Or.inl hq3)
            · exact Or.inl ⟨q, hq', hq1, hq2, hq3⟩
          · exact Or.inr (Or.inr hm)
      · rw [getD_set_ne hke]
        constructor
        · rintro (⟨q, hq, hrest⟩ | hm)
          · exact Or.inl ⟨q, List.mem_cons_of_mem _ hq, hrest⟩
          · exact Or.inr hm
        · rintro (⟨q, hq, hq1, hq2, hq3⟩ | hm)
          · rcases List.mem_cons.1 hq with rfl | hq'
            · exact absurd hq2 hke
            · exact Or.inl ⟨q, hq', hq1, hq2, hq3⟩
          · exact Or.inr hm

/-- Membership in the `tags` side after the backward postcondition
phase: exactly the initial members not discarded by a resolved positive
postcondition on that participant. -/
theorem mem_postBack_tags {ents : List Entity} {ps : List Pattern}
    {st : List (List Tag) × List (List Tag)} {k : Nat} {t : Tag}
    (hnd1 : AllNodup st.1) (hnd2 : AllNodup st.2) :
    (t ∈ (ps.foldl (applyPostBack ents) st).1.getD k [] ↔
      t ∈ st.1.getD k [] ∧ ∀ p ∈ ps, ¬(p.sign = true ∧ p.entity = k ∧
        t = ⟨p.tag.tag, resolveBinds ents p.tag.binds⟩)) := by
  induction ps generalizing st with
  | nil => simp
  | cons p ps ih =>
    obtain ⟨j1, j2⟩ := allNodup_applyPostBack ents st p hnd1 hnd2
    rw [List.foldl_cons, ih j1 j2]
    cases hs : p.sign with
    | false =>
      have h1 : (applyPostBack ents st p).1 = st.1 := by simp [applyPostBack, hs]
      rw [h1]
      constructor
      · rintro ⟨hm, hall⟩
        refine ⟨hm, fun q hq => ?_⟩
        rcases List.mem_cons.1 hq with rfl | hq'
        · rintro ⟨hq1, -⟩; rw [hs] at hq1; exact absurd hq1 (by simp)
        · exact hall q hq'
      · rintro ⟨hm, hall⟩
        exact ⟨hm, fun q hq => hall q (List.mem_cons_of_mem _ hq)⟩
    | true =>
      have h1 : (applyPostBack ents st p).1 =
          st.1.set p.entity ((st.1.getD p.entity []).erase
            ⟨p.tag.tag, resolveBinds ents p.tag.binds⟩) := by
        simp [applyPostBack, hs]
      rw [h1]
      by_cases hklen : p.entity < st.1.length
      · by_cases hke : p.entity = k
        · subst hke
          rw [getD_set_self' hklen]
          rw [(getD_nodup hnd1 p.entity).mem_erase_iff]
          constructor
          · rintro ⟨⟨hne, hm⟩, hall⟩
            refine ⟨hm, fun q hq => ?_⟩
            rcases List.mem_cons.1 hq with rfl | hq'
            · rintro ⟨-, -, ht⟩; exact hne ht
            · exact hall q hq'
          · rintro ⟨hm, hall⟩
            refine ⟨⟨?_, hm⟩, fun q hq => hall q (List.mem_cons_of_mem _ hq)⟩
            intro ht
            exact hall p (List.mem_cons_self _ _) ⟨hs, rfl, ht⟩
        · rw [getD_set_ne hke]
          constructor
          · rintro ⟨hm, hall⟩
            refine ⟨hm, fun q hq => ?_⟩
            rcases List.mem_cons.1 hq with rfl | hq'
            · rintro ⟨-, hq2, -⟩; exact hke hq2
            · exact hall q hq'
          · rintro ⟨hm, hall⟩
            exact ⟨hm, fun q hq => hall q (List.mem_cons_of_mem _ hq)⟩
      · rw [List.set_eq_of_length_le (by omega)]
        by_cases hke : p.entity = k
        · subst hke
          rw [getD_oob (by omega)]
          simp
        · constructor
          · rintro ⟨hm, hall⟩
            refine ⟨hm, fun q hq => ?_⟩
            rcases List.mem_cons.1 hq with rfl | hq'
            · rintro ⟨-, hq2, -⟩; exact hke hq2
            · exact hall q hq'
          · rintro ⟨hm, hall⟩
            exact ⟨hm, fun q hq => hall q (List.mem_cons_of_mem _ hq)⟩

/-- Membership in the `tags` side after the backward precondition
phase: the resolved positive preconditions of that participant are
added to whatever was already there. -/
theorem mem_preBack_tags {ents : List Entity} {ps : List Pattern}
    {st : List (List Tag) × List (List Tag)} {k : Nat} {t : Tag}
    (hk : k < st.1.length) :
    (t ∈ (ps.foldl (applyPreBack ents) st).1.getD k [] ↔
      (∃ p ∈ ps, p.sign = true ∧ p.entity = k ∧
        t = ⟨p.tag.tag, resolveBinds ents p.tag.binds⟩) ∨ t ∈ st.1.getD k []) := by
  induction ps generalizing st with
  | nil => simp
  | cons p ps ih =>
    have hk' : k < (applyPreBack ents st p).1.length := by
      rw [(applyPreBack_len ents st p).1]; exact hk
    rw [List.foldl_cons, ih hk']
    cases hs : p.sign with
    | false =>
      have h1 : (applyPreBack ents st p).1 = st.1 := by simp [applyPreBack, hs]
      rw [h1]
      constructor
      · rintro (⟨q, hq, hrest⟩ | hm)
        · exact Or.inl ⟨q, List.mem_cons_of_mem _ hq, hrest⟩
        · exact Or.inr hm
      · rintro (⟨q, hq, hq1, hrest⟩ | hm)
        · rcases List.mem_cons.1 hq with rfl | hq'
          · rw [hs] at hq1; exact absurd hq1 (by simp)
          · exact Or.inl ⟨q, hq', hq1, hrest⟩
        · exact Or.inr hm
    | true =>
      have h1 : (applyPreBack ents st p).1 =
          st.1.set p.entity (List.insert ⟨p.tag.tag, resolveBinds ents p.tag.binds⟩
            (st.1.getD p.entity [])) := by
        simp [applyPreBack, hs]
      rw [h1]
      by_cases hke : p.entity = k
      · subst hke
        rw [getD_set_self' hk, List.mem_insert_iff]
        constructor
        · rintro (⟨q, hq, hrest⟩ | rfl | hm)
          · exact Or.inl ⟨q, List.mem_cons_of_mem _ hq, hrest⟩
          · exact Or.inl ⟨p, List.mem_cons_self _ _, hs, rfl, rfl⟩
          · exact Or.inr hm
        · rintro (⟨q, hq, hq1, hq2, hq3⟩ | hm)
          · rcases List.mem_cons.1 hq with rfl | hq'
            · exact Or.inr (Or.inl hq3)
            · exact Or.inl ⟨q, hq', hq1, hq2, hq3⟩
          · exact Or.inr (Or.inr hm)
      · rw [getD_set_ne hke]
        constructor
        · rintro (⟨q, hq, hrest⟩ | hm)
          · exact Or.inl ⟨q, List.mem_cons_of_mem _ hq, hrest⟩
          · exact Or.inr hm
        · rintro (⟨q, hq, hq1, hq2, hq3⟩ | hm)
          · rcases List.mem_cons.1 hq with rfl | hq'
            · exact absurd hq2 hke
            · exact Or.inl ⟨q, hq', hq1, hq2, hq3⟩
          · exact Or.inr hm

/-! ### Shared shape lemmas for `forward`/`backward` results -/

theorem swizzle_len {pool : List Entity} {swz : List Nat} (hne : ¬swz.isEmpty) :
    (swizzle_tuple pool swz).length = swz.length := by
  rw [swizzle_tuple, if_neg hne, List.length_map]

theorem swizzle_getD {pool : List Entity} {swz : List Nat} (hne : ¬swz.isEmpty)
    {k : Nat} (hk : k < swz.length) :
    (swizzle_tuple pool swz).getD k dEnt = pool.getD (swz.getD k 0) dEnt := by
  rw [swizzle_tuple, if_neg hne, getD_map_lt _ hk dEnt 0]

theorem backwardSets_len (r : Rule) (ents : List Entity) :
    (backwardSets r ents).1.length = ents.length ∧
      (backwardSets r ents).2.length = ents.length := by
  unfold backwardSets
  obtain ⟨p1, p2⟩ := foldl_postBack_len ents r.post
    (ents.map fun e => e.tags.dedup, ents.map fun e => e.notags.dedup)
  obtain ⟨q1, q2⟩ := foldl_preBack_len ents r.pre
    (r.post.foldl (applyPostBack ents)
      (ents.map fun e => e.tags.dedup, ents.map fun e => e.notags.dedup))
  exact ⟨by rw [q1, p1, List.length_map], by rw [q2, p2, List.length_map]⟩

/-- Unpack a successful `backward` into the guard and the result shape. -/
theorem backward_some_eq {r : Rule} {pool res : List Entity} {swz : List Nat}
    (h : r.backward pool swz = some res) :
    (backwardSets r (swizzle_tuple pool swz)).1.any hasDupTagName = false ∧
    res = unswizzle_tuple pool
      ((swizzle_tuple pool swz).zipWith (fun e tnt => Entity.mk e.id e.name tnt.1 tnt.2)
        ((backwardSets r (swizzle_tuple pool swz)).1.zip
          (backwardSets r (swizzle_tuple pool swz)).2)) swz := by
  unfold Rule.backward at h
  by_cases hdup : (backwardSets r (swizzle_tuple pool swz)).1.any hasDupTagName
  · rw [if_pos hdup] at h; exact absurd h (by simp)
  · rw [if_neg hdup] at h
    exact ⟨by simpa using hdup, (Option.some_inj.1 h).symm⟩

/-- Unpack a successful `forward` into the guard and the result shape. -/
theorem forward_some_eq {r : Rule} {pool res : List Entity} {swz : List Nat}
    (h : r.forward pool swz = some res) :
    r.pre.all (fun p => pattern_match p (swizzle_tuple pool swz)) = true ∧
    res = unswizzle_tuple pool
      ((swizzle_tuple pool swz).zipWith (fun e t => Entity.mk e.id e.name t [])
        (r.post.foldl (applyPost (swizzle_tuple pool swz))
          ((swizzle_tuple pool swz).map
            fun e => (e.tags.filter fun t => !t.tag.data.contains '!').dedup))) swz := by
  unfold Rule.forward at h
  by_cases hpre : r.pre.all (fun p => pattern_match p (swizzle_tuple pool swz))
  · rw [if_pos hpre] at h
    exact ⟨hpre, (Option.some_inj.1 h).symm⟩
  · rw [if_neg hpre] at h; exact absurd h (by simp)

/-- The participant at local position `k` of a successful `forward`. -/
theorem forward_participant {r : Rule} {pool res : List Entity} {swz : List Nat}
    (hnd : swz.Nodup) (hrange : ∀ i ∈ swz, i < pool.length) (hne : ¬swz.isEmpty)
    {k : Nat} (hk : k < swz.length) (h : r.forward pool swz = some res) :
    res.getD (swz.getD k 0) dEnt =
      Entity.mk ((swizzle_tuple pool swz).getD k dEnt).id
        ((swizzle_tuple pool swz).getD k dEnt).name
        ((r.post.foldl (applyPost (swizzle_tuple pool swz))
          ((swizzle_tuple pool swz).map
            fun e => (e.tags.filter fun t => !t.tag.data.contains '!').dedup)).getD k [])
        [] := by
  obtain ⟨-, hres⟩ := forward_some_eq h
  set ents := swizzle_tuple pool swz with hents
  set tgs := r.post.foldl (applyPost ents)
    (ents.map fun e => (e.tags.filter fun t => !t.tag.data.contains '!').dedup) with htgs
  have hle : ents.length = swz.length := swizzle_len hne
  have hlt : tgs.length = ents.length := by
    rw [htgs, length_foldl_applyPost, List.length_map]
  have hlnew : (ents.zipWith (fun e t => Entity.mk e.id e.name t []) tgs).length
      = swz.length := by
    rw [List.length_zipWith, hlt, Nat.min_self, hle]
  rw [hres, unswizzle_tuple, if_neg hne]
  rw [foldl_set_getD_nodup _ _ _ hnd (le_of_eq hlnew.symm) hrange k hk]
  have hk2 : k < (ents.zipWith (fun e t => Entity.mk e.id e.name t []) tgs).length := by
    omega
  rw [getD_eq_getElem hk2, List.getElem_zipWith]
  rw [getD_eq_getElem (show k < ents.length by omega), getD_eq_getElem (show k < tgs.length by omega)]

/-- The participant at local position `k` of a successful `backward`. -/
theorem backward_participant {r : Rule} {pool res : List Entity} {swz : List Nat}
    (hnd : swz.Nodup) (hrange : ∀ i ∈ swz, i < pool.length) (hne : ¬swz.isEmpty)
    {k : Nat} (hk : k < swz.length) (h : r.backward pool swz = some res) :
    res.getD (swz.getD k 0) dEnt =
      Entity.mk ((swizzle_tuple pool swz).getD k dEnt).id
        ((swizzle_tuple pool swz).getD k dEnt).name
        ((backwardSets r (swizzle_tuple pool swz)).1.getD k [])
        ((backwardSets r (swizzle_tuple pool swz)).2.getD k []) := by
  obtain ⟨-, hres⟩ := backward_some_eq h
  set ents := swizzle_tuple pool swz with hents
  set st := backwardSets r ents with hst
  have hle : ents.length = swz.length := swizzle_len hne
  obtain ⟨hl1, hl2⟩ := backwardSets_len r ents
  rw [← hst] at hl1 hl2
  have hlz : (st.1.zip st.2).length = ents.length := by
    rw [List.length_zip, hl1, hl2, Nat.min_self]
  have hlnew : (ents.zipWith (fun e tnt => Entity.mk e.id e.name tnt.1 tnt.2)
      (st.1.zip st.2)).length = swz.length := by
    rw [List.length_zipWith, hlz, Nat.min_self, hle]
  rw [hres, unswizzle_tuple, if_neg hne]
  rw [foldl_set_getD_nodup _ _ _ hnd (le_of_eq hlnew.symm) hrange k hk]
  have hk2 : k < (ents.zipWith (fun e tnt => Entity.mk e.id e.name tnt.1 tnt.2)
      (st.1.zip st.2)).length := by omega
  rw [getD_eq_getElem hk2, List.getElem_zipWith, List.getElem_zip]
  rw [getD_eq_getElem (show k < ents.length by omega),
    getD_eq_getElem (show k < st.1.length by omega),
    getD_eq_getElem (show k < st.2.length by omega)]

/-! ### C8 — frame conditions of rule application -/

/-- C8: a successful forward application preserves the length of the
pool, returns every position not covered by the assignment unchanged,
and rebuilds each participant with the same id and name and `notags`
reset to empty.  A successful backward application likewise leaves
uncovered positions unchanged and preserves participant id/name, but
does *not* reset `notags`: a tag is in the resulting participant's
`notags` iff it is a resolved negative precondition of that slot or
was already there and no resolved negative postcondition of that slot
discards it — `notags` persists, extended only by the rule's negative
preconditions and shrunk only by its negative postconditions. -/
theorem claim_C8 (r : Rule) (pool : List Entity) (swz : List Nat)
    (hnd : swz.Nodup) (hrange : ∀ i ∈ swz, i < pool.length) (hne : swz ≠ []) :
    (∀ res, r.forward pool swz = some res →
      res.length = pool.length ∧
      (∀ j, j ∉ swz → res.getD j dEnt = pool.getD j dEnt) ∧
      (∀ k, k < swz.length →
        (res.getD (swz.getD k 0) dEnt).id = (pool.getD (swz.getD k 0) dEnt).id ∧
        (res.getD (swz.getD k 0) dEnt).name = (pool.getD (swz.getD k 0) dEnt).name ∧
        (res.getD (swz.getD k 0) dEnt).notags = [])) ∧
    (∀ res, r.backward pool swz = some res →
      res.length = pool.length ∧
      (∀ j, j ∉ swz → res.getD j dEnt = pool.getD j dEnt) ∧
      (∀ k, k < swz.length →
        (res.getD (swz.getD k 0) dEnt).id = (pool.getD (swz.getD k 0) dEnt).id ∧
        (res.getD (swz.getD k 0) dEnt).name = (pool.getD (swz.getD k 0) dEnt).name ∧
        (∀ t ∈ (res.getD (swz.getD k 0) dEnt).notags,
          (∃ p ∈ r.pre, p.sign = false ∧ p.entity = k ∧
            t = ⟨p.tag.tag, resolveBinds (swizzle_tuple pool swz) p.tag.binds⟩) ∨
          (t ∈ (pool.getD (swz.getD k 0) dEnt).notags ∧
            ¬∃ p ∈ r.post, p.sign = false ∧ p.entity = k ∧
              t = ⟨p.tag.tag, resolveBinds (swizzle_tuple pool swz) p.tag.binds⟩)) ∧
        (∀ p ∈ r.pre, p.sign = false → p.entity = k →
          (⟨p.tag.tag, resolveBinds (swizzle_tuple pool swz) p.tag.binds⟩ : Tag) ∈
            (res.getD (swz.getD k 0) dEnt).notags) ∧
        (∀ t ∈ (pool.getD (swz.getD k 0) dEnt).notags,
          (¬∃ p ∈ r.post, p.sign = false ∧ p.entity = k ∧
            t = ⟨p.tag.tag, resolveBinds (swizzle_tuple pool swz) p.tag.binds⟩) →
          t ∈ (res.getD (swz.getD k 0) dEnt).notags))) := by
  have hne' : ¬swz.isEmpty := by simpa [List.isEmpty_iff] using hne
  set ents := swizzle_tuple pool swz with hents
  have hle : ents.length = swz.length := swizzle_len hne'
  have hinit1 : AllNodup (ents.map fun e => e.tags.dedup) := by
    intro ts hts; rcases List.mem_map.1 hts with ⟨e, -, rfl⟩; exact List.nodup_dedup _
  have hinit2 : AllNodup (ents.map fun e => e.notags.dedup) := by
    intro ts hts; rcases List.mem_map.1 hts with ⟨e, -, rfl⟩; exact List.nodup_dedup _
  constructor
  · intro res hfwd
    obtain ⟨-, hres⟩ := forward_some_eq hfwd
    refine ⟨?_, ?_, ?_⟩
    · rw [hres, unswizzle_length _ _ _ hne']
    · intro j hj
      rw [hres, unswizzle_getD_not_mem _ _ _ _ hj hne']
    · intro k hk
      rw [forward_participant hnd hrange hne' hk hfwd, ← hents, swizzle_getD hne' hk]
      exact ⟨rfl, rfl, rfl⟩
  · intro res hbwd
    refine ⟨?_, ?_, ?_⟩
    · obtain ⟨-, hres⟩ := backward_some_eq hbwd
      rw [hres, unswizzle_length _ _ _ hne']
    · intro j hj
      obtain ⟨-, hres⟩ := backward_some_eq hbwd
      rw [hres, unswizzle_getD_not_mem _ _ _ _ hj hne']
    · intro k hk
      rw [backward_participant hnd hrange hne' hk hbwd, ← hents, swizzle_getD hne' hk]
      have hk1 : k < (r.post.foldl (applyPostBack ents)
          (ents.map fun e => e.tags.dedup, ents.map fun e => e.notags.dedup)).2.length := by
        have := (foldl_postBack_len ents r.post
          (ents.map fun e => e.tags.dedup, ents.map fun e => e.notags.dedup)).2
        simp only [this, List.length_map]
        omega
      have hmem : ∀ t : Tag, t ∈ (backwardSets r ents).2.getD k [] ↔
          (∃ p ∈ r.pre, p.sign = false ∧ p.entity = k ∧
            t = ⟨p.tag.tag, resolveBinds ents p.tag.binds⟩) ∨
          (t ∈ (pool.getD (swz.getD k 0) dEnt).notags ∧
            ¬∃ p ∈ r.post, p.sign = false ∧ p.entity = k ∧
              t = ⟨p.tag.tag, resolveBinds ents p.tag.binds⟩) := by
        intro t
        rw [backwardSets, mem_preBack_notags hk1, mem_postBack_notags hinit1 hinit2]
        have hik : (ents.map fun e => e.notags.dedup).getD k [] =
            ((pool.getD (swz.getD k 0) dEnt).notags).dedup := by
          rw [getD_map_lt _ (show k < ents.length by omega) [] dEnt, hents,
            swizzle_getD hne' hk]
        rw [hik]
        constructor
        · rintro (h | ⟨hm, hall⟩)
          · exact Or.inl h
          · refine Or.inr ⟨List.mem_dedup.1 hm, ?_⟩
            rintro ⟨p, hp, hp1, hp2, hp3⟩
            exact hall p hp ⟨hp1, hp2, hp3⟩
        · rintro (h | ⟨hm, hnall⟩)
          · exact Or.inl h
          · refine Or.inr ⟨List.mem_dedup.2 hm, ?_⟩
            intro p hp hcon
            exact hnall ⟨p, hp, hcon⟩
      refine ⟨rfl, rfl, ?_, ?_, ?_⟩
      · intro t ht
        exact (hmem t).1 ht
      · intro p hp hsign hent
        exact (hmem _).2 (Or.inl ⟨p, hp, hsign, hent, rfl⟩)
      · intro t ht hnall
        refine (hmem t).2 (Or.inr ⟨ht, ?_⟩)
        rintro ⟨p, hp, hp1, hp2, hp3⟩
        exact hnall ⟨p, hp, hp1, hp2, hp3⟩

/-- C8 witness: the theorem instantiated at `cexRulePm` applied
backward (its negative precondition lands in the participant's
`notags`, which is not reset) and forward on a two-entity pool, with
swizzle `[1]`, leaving position 0 untouched. -/
theorem claim_C8_witness :
    ([1].Nodup ∧ (∀ i ∈ [1], i < 2) ∧ ([1] : List Nat) ≠ []) ∧
    ((∀ res, cexRulePm.forward
        [⟨0, "a", [], []⟩, ⟨1, "b", [⟨"foo", []⟩], [⟨"bar", []⟩]⟩] [1] = some res →
      res.length = 2 ∧
      (∀ j, j ∉ [1] → res.getD j dEnt =
        [(⟨0, "a", [], []⟩ : Entity), ⟨1, "b", [⟨"foo", []⟩], [⟨"bar", []⟩]⟩].getD j dEnt) ∧
      (∀ k, k < 1 →
        (res.getD ([1].getD k 0) dEnt).id =
          ([(⟨0, "a", [], []⟩ : Entity), ⟨1, "b", [⟨"foo", []⟩], [⟨"bar", []⟩]⟩].getD
            ([1].getD k 0) dEnt).id ∧
        (res.getD ([1].getD k 0) dEnt).name =
          ([(⟨0, "a", [], []⟩ : Entity), ⟨1, "b", [⟨"foo", []⟩], [⟨"bar", []⟩]⟩].getD
            ([1].getD k 0) dEnt).name ∧
        (res.getD ([1].getD k 0) dEnt).notags = []))) := by
  have h := claim_C8 cexRulePm
    [⟨0, "a", [], []⟩, ⟨1, "b", [⟨"foo", []⟩], [⟨"bar", []⟩]⟩] [1]
    (by decide) (by decide) (by decide)
  exact ⟨⟨by decide, by decide, by decide⟩, h.1⟩

/-! ### C10 — matching and forward replay never consult `notags` -/

/-- Two entities agreeing on everything except possibly `notags`. -/
def entTagsEq (a b : Entity) : Prop := a.id = b.id ∧ a.name = b.name ∧ a.tags = b.tags

/-- Two pools agreeing pointwise on everything except possibly
`notags`. -/
def poolTagsEq (p q : List Entity) : Prop := List.Forall₂ entTagsEq p q

theorem poolTagsEq_refl (l : List Entity) : poolTagsEq l l := by
  induction l with
  | nil => exact List.Forall₂.nil
  | cons a l ih => exact List.Forall₂.cons ⟨rfl, rfl, rfl⟩ ih

theorem check_chain_some (es : List Entity) (chain : List AiRule) :
    check_chain (some es) chain =
      if es.isEmpty then false else check_chain_go es chain := rfl

theorem anyCongr {α : Type} {l : List α} {f g : α → Bool}
    (h : ∀ a ∈ l, f a = g a) : l.any f = l.any g := by
  induction l with
  | nil => rfl
  | cons a l ih =>
    simp only [List.any_cons, h a (List.mem_cons_self _ _),
      ih fun b hb => h b (List.mem_cons_of_mem _ hb)]

theorem allCongr {α : Type} {l : List α} {f g : α → Bool}
    (h : ∀ a ∈ l, f a = g a) : l.all f = l.all g := by
  induction l with
  | nil => rfl
  | cons a l ih =>
    simp only [List.all_cons, h a (List.mem_cons_self _ _),
      ih fun b hb => h b (List.mem_cons_of_mem _ hb)]

theorem poolTagsEq_getD {p q : List Entity} (h : poolTagsEq p q) (i : Nat) :
    entTagsEq (p.getD i dEnt) (q.getD i dEnt) := by
  induction h generalizing i with
  | nil => exact ⟨rfl, rfl, rfl⟩
  | cons ha _ ih =>
    cases i with
    | zero => exact ha
    | succ i => exact ih i

theorem tag_match_congr {e e' : Entity} {tag : Tag} {p q : List Entity}
    (he : e.tags = e'.tags) (h : poolTagsEq p q) :
    tag_match e tag p = tag_match e' tag q := by
  unfold tag_match
  rw [he]
  refine anyCongr fun t _ => ?_
  congr 1
  refine allCongr fun bb _ => ?_
  rw [(poolTagsEq_getD h bb.2).1]

theorem pattern_match_congr {pat : Pattern} {p q : List Entity} (h : poolTagsEq p q) :
    pattern_match pat p = pattern_match pat q := by
  unfold pattern_match
  rw [tag_match_congr (poolTagsEq_getD h pat.entity).2.2 h]

theorem resolveBinds_congr {p q : List Entity} (h : poolTagsEq p q) (binds : List Nat) :
    resolveBinds p binds = resolveBinds q binds := by
  unfold resolveBinds
  exact List.map_congr_left fun b _ => (poolTagsEq_getD h b).1

theorem swizzle_congr {p q : List Entity} (h : poolTagsEq p q) (swz : List Nat) :
    poolTagsEq (swizzle_tuple p swz) (swizzle_tuple q swz) := by
  unfold swizzle_tuple
  by_cases hemp : swz.isEmpty
  · rw [if_pos hemp, if_pos hemp]; exact h
  · rw [if_neg hemp, if_neg hemp]
    induction swz with
    | nil => exact List.Forall₂.nil
    | cons i swz ih =>
      exact List.Forall₂.cons (poolTagsEq_getD h i) (by
        by_cases h2 : swz.isEmpty
        · have : swz = [] := by simpa [List.isEmpty_iff] using h2
          subst this; exact List.Forall₂.nil
        · exact ih h2)

theorem mapTags_congr {p q : List Entity} (h : poolTagsEq p q)
    (g : List Tag → List Tag) :
    p.map (fun e => g e.tags) = q.map (fun e => g e.tags) := by
  induction h with
  | nil => rfl
  | cons ha _ ih => simp only [List.map_cons, ih, ha.2.2]

theorem zipWithMk_congr {p q : List Entity} (h : poolTagsEq p q)
    (ts : List (List Tag)) :
    p.zipWith (fun e t => Entity.mk e.id e.name t []) ts =
      q.zipWith (fun e t => Entity.mk e.id e.name t []) ts := by
  induction h generalizing ts with
  | nil => rfl
  | cons ha _ ih =>
    cases ts with
    | nil => rfl
    | cons t ts =>
      simp only [List.zipWith_cons_cons, ih, ha.1, ha.2.1]

theorem set_congr {p q : List Entity} (h : poolTagsEq p q) (i : Nat) {a b : Entity}
    (hab : entTagsEq a b) : poolTagsEq (p.set i a) (q.set i b) := by
  induction h generalizing i with
  | nil => exact List.Forall₂.nil
  | cons ha hr ih =>
    cases i with
    | zero => exact List.Forall₂.cons hab hr
    | succ i => exact List.Forall₂.cons ha (ih i)

theorem unswizzle_congr {p q new : List Entity} (h : poolTagsEq p q) (swz : List Nat) :
    poolTagsEq (unswizzle_tuple p new swz) (unswizzle_tuple q new swz) := by
  unfold unswizzle_tuple
  by_cases hemp : swz.isEmpty
  · rw [if_pos hemp, if_pos hemp]
    exact poolTagsEq_refl new
  · rw [if_neg hemp, if_neg hemp]
    induction new.zip swz generalizing p q with
    | nil => exact h
    | cons ei ps ih =>
      exact ih (set_congr h ei.2 ⟨rfl, rfl, rfl⟩)

theorem forward_congr {p q : List Entity} (h : poolTagsEq p q) (r : Rule)
    (swz : List Nat) :
    (r.forward p swz = none ∧ r.forward q swz = none) ∨
    (∃ rp rq, r.forward p swz = some rp ∧ r.forward q swz = some rq ∧
      poolTagsEq rp rq) := by
  have hsw := swizzle_congr h swz
  have hguard : (r.pre.all fun pat => pattern_match pat (swizzle_tuple p swz)) =
      (r.pre.all fun pat => pattern_match pat (swizzle_tuple q swz)) :=
    allCongr fun pat _ => pattern_match_congr hsw
  unfold Rule.forward
  by_cases hpre : r.pre.all fun pat => pattern_match pat (swizzle_tuple p swz)
  · rw [if_pos hpre, if_pos (hguard ▸ hpre)]
    refine Or.inr ⟨_, _, rfl, rfl, ?_⟩
    have htags0 : (swizzle_tuple p swz).map
        (fun e => (e.tags.filter fun t => !t.tag.data.contains '!').dedup) =
        (swizzle_tuple q swz).map
        (fun e => (e.tags.filter fun t => !t.tag.data.contains '!').dedup) :=
      mapTags_congr hsw
        (fun ts => (ts.filter fun t => !t.tag.data.contains '!').dedup)
    have happ : applyPost (swizzle_tuple p swz) = applyPost (swizzle_tuple q swz) := by
      funext acc pat
      unfold applyPost
      rw [resolveBinds_congr hsw]
    rw [htags0, happ, zipWithMk_congr hsw]
    exact unswizzle_congr h swz
  · rw [if_neg hpre, if_neg (hguard ▸ hpre)]
    exact Or.inl ⟨rfl, rfl⟩

theorem check_chain_congr {p q : List Entity} (h : poolTagsEq p q)
    (chain : List AiRule) :
    check_chain (some p) chain = check_chain (some q) chain := by
  have hlen : p.isEmpty = q.isEmpty := by
    rcases h with _ | _
    · rfl
    · rfl
  rw [check_chain_some, check_chain_some, hlen]
  by_cases hemp : q.isEmpty
  · rw [if_pos hemp, if_pos hemp]
  · rw [if_neg hemp, if_neg hemp]
    induction chain generalizing p q with
    | nil => rfl
    | cons c rest ih =>
      unfold check_chain_go
      rcases forward_congr h c.rule c.swizzle with ⟨h1, h2⟩ | ⟨rp, rq, h1, h2, hrel⟩
      · rw [h1, h2]
      · rw [h1, h2]
        have hlen2 : rp.isEmpty = rq.isEmpty := by
          rcases hrel with _ | _
          · rfl
          · rfl
        change (if rp.isEmpty = true then false else check_chain_go rp rest) =
          (if rq.isEmpty = true then false else check_chain_go rq rest)
        rw [hlen2]
        by_cases hemp2 : rq.isEmpty
        · rw [if_pos hemp2, if_pos hemp2]
        · rw [if_neg hemp2, if_neg hemp2]
          exact ih hrel hlen2 hemp2

/-- C10: pattern matching is independent of `notags` — for pools
identical except in their `notags` fields, `tag_match` and
`pattern_match` return identical results, forward application returns
`None` on one iff on the other (and otherwise pools again identical
except `notags`), and chain replay via `check_chain` is identical; so
negative preconditions are checked only as absence from `tags`, and
forward replay never consults the exclusion constraints accumulated in
`notags` during backward regression. -/
theorem claim_C10 (p q : List Entity) (h : poolTagsEq p q) :
    (∀ e e' : Entity, ∀ tag : Tag, e.tags = e'.tags →
      tag_match e tag p = tag_match e' tag q) ∧
    (∀ pat : Pattern, pattern_match pat p = pattern_match pat q) ∧
    (∀ r : Rule, ∀ swz : List Nat,
      (r.forward p swz = none ∧ r.forward q swz = none) ∨
      (∃ rp rq, r.forward p swz = some rp ∧ r.forward q swz = some rq ∧
        poolTagsEq rp rq)) ∧
    (∀ chain : List AiRule, check_chain (some p) chain = check_chain (some q) chain) :=
  ⟨fun _ _ _ he => tag_match_congr he h,
   fun _ => pattern_match_congr h,
   fun r swz => forward_congr h r swz,
   fun chain => check_chain_congr h chain⟩

/-- C10 witness: the theorem applied to two one-entity pools that
differ exactly in `notags`. -/
theorem claim_C10_witness :
    poolTagsEq [⟨0, "x", [⟨"foo", []⟩], []⟩] [⟨0, "x", [⟨"foo", []⟩], [⟨"bar", []⟩]⟩] ∧
    ((∀ e e' : Entity, ∀ tag : Tag, e.tags = e'.tags →
      tag_match e tag [⟨0, "x", [⟨"foo", []⟩], []⟩] =
        tag_match e' tag [⟨0, "x", [⟨"foo", []⟩], [⟨"bar", []⟩]⟩]) ∧
    (∀ pat : Pattern, pattern_match pat [⟨0, "x", [⟨"foo", []⟩], []⟩] =
      pattern_match pat [⟨0, "x", [⟨"foo", []⟩], [⟨"bar", []⟩]⟩]) ∧
    (∀ r : Rule, ∀ swz : List Nat,
      (r.forward [⟨0, "x", [⟨"foo", []⟩], []⟩] swz = none ∧
        r.forward [⟨0, "x", [⟨"foo", []⟩], [⟨"bar", []⟩]⟩] swz = none) ∨
      (∃ rp rq, r.forward [⟨0, "x", [⟨"foo", []⟩], []⟩] swz = some rp ∧
        r.forward [⟨0, "x", [⟨"foo", []⟩], [⟨"bar", []⟩]⟩] swz = some rq ∧
        poolTagsEq rp rq)) ∧
    (∀ chain : List AiRule,
      check_chain (some [⟨0, "x", [⟨"foo", []⟩], []⟩]) chain =
        check_chain (some [⟨0, "x", [⟨"foo", []⟩], [⟨"bar", []⟩]⟩]) chain)) :=
  have hpq : poolTagsEq [⟨0, "x", [⟨"foo", []⟩], []⟩]
      [⟨0, "x", [⟨"foo", []⟩], [⟨"bar", []⟩]⟩] :=
    List.Forall₂.cons ⟨rfl, rfl, rfl⟩ List.Forall₂.nil
  ⟨hpq, claim_C10 _ _ hpq⟩

/-! ### C2 — which yielded chains pass the validator -/

theorem dumbStep_check (rules : List Rule) (n : Nat) :
    ∀ budget (e : List Entity) (chain : List AiRule),
      check_chain (some e) chain = true →
      ∀ c ∈ dumbStep rules n budget e chain, check_chain c.start c.rules = true := by
  intro budget
  induction budget with
  | zero =>
    intro e chain hchk c hc
    rcases List.mem_singleton.1 hc with rfl
    exact hchk
  | succ budget ih =>
    intro e chain hchk c hc
    rw [dumbStep] at hc
    rcases List.mem_cons.1 hc with rfl | hc
    · exact hchk
    · rcases List.mem_flatMap.1 hc with ⟨cand, -, hcm⟩
      split at hcm
      · simp at hcm
      · next enext heq =>
        by_cases hemp : enext.isEmpty
        · rw [if_pos hemp] at hcm; simp at hcm
        · rw [if_neg hemp] at hcm
          by_cases hchk2 : check_chain (some enext) (AiRule.mk cand.rule cand.swizzle :: chain)
          · rw [if_pos hchk2] at hcm
            exact ih enext _ hchk2 c hcm
          · rw [if_neg hchk2] at hcm; simp at hcm

theorem dumbStep_tail_check (rules : List Rule) (n : Nat) (budget : Nat)
    (e : List Entity) (chain : List AiRule) :
    ∀ c ∈ (dumbStep rules n budget e chain).tail,
      check_chain c.start c.rules = true := by
  cases budget with
  | zero => intro c hc; simp [dumbStep] at hc
  | succ budget =>
    intro c hc
    rw [dumbStep] at hc
    simp only [List.tail_cons] at hc
    rcases List.mem_flatMap.1 hc with ⟨cand, -, hcm⟩
    split at hcm
    · simp at hcm
    · next enext heq =>
      by_cases hemp : enext.isEmpty
      · rw [if_pos hemp] at hcm; simp at hcm
      · rw [if_neg hemp] at hcm
        by_cases hchk2 : check_chain (some enext) (AiRule.mk cand.rule cand.swizzle :: chain)
        · rw [if_pos hchk2] at hcm
          exact dumbStep_check rules n budget enext _ hchk2 c hcm
        · rw [if_neg hchk2] at hcm; simp at hcm

theorem greedyLoop_check (rules : List Rule) (n maxDepth : Nat) :
    ∀ fuel work c, c ∈ greedyLoop rules n maxDepth fuel work →
      check_chain c.start c.rules = true := by
  intro fuel
  induction fuel with
  | zero => intro work c hc; simp [greedyLoop] at hc
  | succ fuel ih =>
    intro work c hc
    rw [greedyLoop] at hc
    by_cases hemp : work.isEmpty
    · rw [if_pos hemp] at hc; simp at hc
    · rw [if_neg hemp] at hc
      simp only [] at hc
      set pr := heappop nodePyLt dNode work with hpr
      set hd := pr.1.chain.headD dAiRule with hhd
      set entities := hd.rule.backward pr.1.entities hd.swizzle with hent
      by_cases hchk : check_chain entities pr.1.chain
      · rw [if_pos hchk] at hc
        rcases List.mem_cons.1 hc with rfl | hc
        · exact hchk
        · by_cases hdep : pr.1.chain.length ≤ maxDepth
          · rw [if_pos hdep] at hc
            exact ih _ c hc
          · rw [if_neg hdep] at hc
            exact ih _ c hc
      · rw [if_neg hchk] at hc
        exact ih _ c hc

/-- C2 (amended): every chain yielded by `ai_search_greedy` passes the
chain validator, and so does every chain yielded by `ai_search_dumb`
*except possibly the very first*: the dumb strategy emits the
root-only chain unconditionally, before any validation, and its first
element is always `AiChain(root backward regression, [root rule])`,
validated or not. -/
theorem claim_C2_amended :
    (∀ (rules : List Rule) (root : Rule) (n maxDepth : Nat) (c : AiChain),
      c ∈ ai_search_greedy rules root n maxDepth →
        check_chain c.start c.rules = true) ∧
    (∀ (rules : List Rule) (root : Rule) (n maxDepth : Nat) (c : AiChain),
      c ∈ (ai_search_dumb rules root n maxDepth).tail →
        check_chain c.start c.rules = true) ∧
    (∀ (rules : List Rule) (root : Rule) (n maxDepth : Nat),
      (ai_search_dumb rules root n maxDepth).head? =
        some (AiChain.mk (root.backward (startEntities n) [])
          [AiRule.mk root ((List.range n).take root.num)])) := by
  refine ⟨?_, ?_, ?_⟩
  · intro rules root n maxDepth c hc
    exact greedyLoop_check rules n maxDepth _ _ c hc
  · intro rules root n maxDepth c hc
    unfold ai_search_dumb at hc
    rcases hb : root.backward (startEntities n) [] with - | start'
    · rw [hb] at hc; simp at hc
    · rw [hb] at hc
      exact dumbStep_tail_check rules n maxDepth start' _ c hc
  · intro rules root n maxDepth
    unfold ai_search_dumb
    rcases hb : root.backward (startEntities n) [] with - | start'
    · rfl
    · cases maxDepth with
      | zero => rfl
      | succ d => rfl

/-- C2 (counterexample): with the library empty, the root rule
`cexRulePm` (preconditions `+foo` and `-foo` on the same slot), one
entity and depth 0, the dumb search yields exactly one chain — and
that chain fails `check_chain` (replaying the rule forward is
impossible since `foo` cannot be both present and absent).  So not
every yielded chain has passed the validator, not even the very first
root-only chain. -/
theorem claim_C2_counterexample :
    ai_search_dumb [] cexRulePm 1 0 =
      [AiChain.mk (some [⟨0, "e_0", [⟨"foo", []⟩], [⟨"foo", []⟩]⟩]) [⟨cexRulePm, [0]⟩]] ∧
    check_chain (some [⟨0, "e_0", [⟨"foo", []⟩], [⟨"foo", []⟩]⟩]) [⟨cexRulePm, [0]⟩] = false := by
  exact ⟨by decide, by decide⟩

/-! ### C4 — round trip: forward, regress, replay -/

theorem applyPost_pos_eq (ents : List Entity) (acc : List (List Tag)) (p : Pattern)
    (h : p.sign = true) :
    applyPost ents acc p = acc.set p.entity
      (List.insert ⟨p.tag.tag, resolveBinds ents p.tag.binds⟩ (acc.getD p.entity [])) := by
  unfold applyPost
  rw [h, if_pos rfl]

theorem applyPost_neg_eq (ents : List Entity) (acc : List (List Tag)) (p : Pattern)
    (h : p.sign = false) :
    applyPost ents acc p = acc.set p.entity
      ((acc.getD p.entity []).filter fun t => t.tag ≠ p.tag.tag) := by
  unfold applyPost
  rw [h, if_neg (by simp)]

/-- A tag survives the forward postcondition fold if no negative
postcondition on its participant shares its name. -/
theorem foldl_applyPost_surv {ents : List Entity} {ps : List Pattern}
    {acc : List (List Tag)} {k : Nat} {t : Tag} (ht : t ∈ acc.getD k [])
    (hno : ∀ q ∈ ps, ¬(q.sign = false ∧ q.entity = k ∧ q.tag.tag = t.tag)) :
    t ∈ (ps.foldl (applyPost ents) acc).getD k [] := by
  induction ps generalizing acc with
  | nil => exact ht
  | cons q ps ih =>
    rw [List.foldl_cons]
    refine ih ?_ (fun q' hq' => hno q' (List.mem_cons_of_mem _ hq'))
    by_cases hklen : q.entity < acc.length
    · by_cases hke : q.entity = k
      · cases hs : q.sign with
        | true =>
          rw [applyPost_pos_eq _ _ _ hs, hke, getD_set_self' (hke ▸ hklen)]
          exact List.mem_insert_of_mem ht
        | false =>
          rw [applyPost_neg_eq _ _ _ hs, hke, getD_set_self' (hke ▸ hklen),
            List.mem_filter]
          refine ⟨ht, ?_⟩
          rw [decide_eq_true_iff]
          intro hcon
          exact hno q (List.mem_cons_self _ _) ⟨hs, hke, hcon.symm⟩
      · cases hs : q.sign with
        | true => rw [applyPost_pos_eq _ _ _ hs, getD_set_ne hke]; exact ht
        | false => rw [applyPost_neg_eq _ _ _ hs, getD_set_ne hke]; exact ht
    · cases hs : q.sign with
      | true =>
        rw [applyPost_pos_eq _ _ _ hs, List.set_eq_of_length_le (by omega)]
        exact ht
      | false =>
        rw [applyPost_neg_eq _ _ _ hs, List.set_eq_of_length_le (by omega)]
        exact ht

/-- If a participant's working set has no tag named `σ` and no positive
postcondition on it introduces `σ`, the folded set still has none. -/
theorem foldl_applyPost_abs {ents : List Entity} {ps : List Pattern}
    {acc : List (List Tag)} {k : Nat} {σ : String}
    (hinit : ∀ t ∈ acc.getD k [], t.tag ≠ σ)
    (hno : ∀ q ∈ ps, ¬(q.sign = true ∧ q.entity = k ∧ q.tag.tag = σ)) :
    ∀ t ∈ (ps.foldl (applyPost ents) acc).getD k [], t.tag ≠ σ := by
  induction ps generalizing acc with
  | nil => exact hinit
  | cons q ps ih =>
    rw [List.foldl_cons]
    refine ih ?_ (fun q' hq' => hno q' (List.mem_cons_of_mem _ hq'))
    intro t ht
    by_cases hklen : q.entity < acc.length
    · by_cases hke : q.entity = k
      · cases hs : q.sign with
        | true =>
          rw [applyPost_pos_eq _ _ _ hs, hke, getD_set_self' (hke ▸ hklen)] at ht
          rcases List.mem_insert_iff.1 ht with rfl | ht
          · intro hcon
            exact hno q (List.mem_cons_self _ _) ⟨hs, hke, hcon⟩
          · exact hinit t ht
        | false =>
          rw [applyPost_neg_eq _ _ _ hs, hke, getD_set_self' (hke ▸ hklen)] at ht
          exact hinit t (List.mem_filter.1 ht).1
      · cases hs : q.sign with
        | true =>
          rw [applyPost_pos_eq _ _ _ hs, getD_set_ne hke] at ht
          exact hinit t ht
        | false =>
          rw [applyPost_neg_eq _ _ _ hs, getD_set_ne hke] at ht
          exact hinit t ht
    · cases hs : q.sign with
      | true =>
        rw [applyPost_pos_eq _ _ _ hs, List.set_eq_of_length_le (by omega)] at ht
        exact hinit t ht
      | false =>
        rw [applyPost_neg_eq _ _ _ hs, List.set_eq_of_length_le (by omega)] at ht
        exact hinit t ht

/-- A positive postcondition's resolved tag is present after the fold,
provided no postcondition of the opposite sign shares its name and
participant. -/
theorem foldl_applyPost_pos {ents : List Entity} {ps : List Pattern}
    {acc : List (List Tag)} {k : Nat} {p : Pattern} (hp : p ∈ ps)
    (hsign : p.sign = true) (hent : p.entity = k) (hk : k < acc.length)
    (hcoh : ∀ q ∈ ps, q.entity = p.entity → q.tag.tag = p.tag.tag → q.sign = p.sign) :
    (⟨p.tag.tag, resolveBinds ents p.tag.binds⟩ : Tag) ∈
      (ps.foldl (applyPost ents) acc).getD k [] := by
  obtain ⟨l1, l2, rfl⟩ := List.append_of_mem hp
  rw [List.foldl_append, List.foldl_cons]
  have hklen : p.entity < (l1.foldl (applyPost ents) acc).length := by
    rw [length_foldl_applyPost]; omega
  refine foldl_applyPost_surv ?_ ?_
  · rw [applyPost_pos_eq _ _ _ hsign, hent, getD_set_self' (hent ▸ hklen)]
    exact List.mem_insert_self _ _
  · intro q hq
    rintro ⟨hq1, hq2, hq3⟩
    have := hcoh q (List.mem_append.2 (Or.inr (List.mem_cons_of_mem _ hq)))
      (by rw [hq2, hent]) hq3
    rw [hsign] at this
    exact absurd (hq1.symm.trans this) (by simp)

/-- After a negative postcondition, no tag of its name remains on its
participant, provided no positive postcondition shares its name and
participant. -/
theorem foldl_applyPost_neg {ents : List Entity} {ps : List Pattern}
    {acc : List (List Tag)} {k : Nat} {p : Pattern} (hp : p ∈ ps)
    (hsign : p.sign = false) (hent : p.entity = k)
    (hcoh : ∀ q ∈ ps, q.entity = p.entity → q.tag.tag = p.tag.tag → q.sign = p.sign) :
    ∀ t ∈ (ps.foldl (applyPost ents) acc).getD k [], t.tag ≠ p.tag.tag := by
  obtain ⟨l1, l2, rfl⟩ := List.append_of_mem hp
  rw [List.foldl_append, List.foldl_cons]
  refine foldl_applyPost_abs ?_ ?_
  · intro t ht
    rw [applyPost_neg_eq _ _ _ hsign, hent] at ht
    by_cases hklen : k < (l1.foldl (applyPost ents) acc).length
    · rw [getD_set_self' hklen] at ht
      have := (List.mem_filter.1 ht).2
      rw [decide_eq_true_iff] at this
      exact this
    · rw [List.set_eq_of_length_le (by omega), getD_oob (by omega)] at ht
      simp at ht
  · intro q hq
    rintro ⟨hq1, hq2, hq3⟩
    have := hcoh q (List.mem_append.2 (Or.inr (List.mem_cons_of_mem _ hq)))
      (by rw [hq2, hent]) hq3
    rw [hsign] at this
    exact absurd (hq1.symm.trans this) (by simp)

theorem forward_length {r : Rule} {pool res : List Entity} {swz : List Nat}
    (hne : ¬swz.isEmpty) (h : r.forward pool swz = some res) :
    res.length = pool.length := by
  obtain ⟨-, hres⟩ := forward_some_eq h
  rw [hres, unswizzle_length _ _ _ hne]

theorem backward_length {r : Rule} {pool res : List Entity} {swz : List Nat}
    (hne : ¬swz.isEmpty) (h : r.backward pool swz = some res) :
    res.length = pool.length := by
  obtain ⟨-, hres⟩ := backward_some_eq h
  rw [hres, unswizzle_length _ _ _ hne]

theorem forward_swizzle_id {r : Rule} {pool res : List Entity} {swz : List Nat}
    (hnd : swz.Nodup) (hrange : ∀ i ∈ swz, i < pool.length) (hne : ¬swz.isEmpty)
    (h : r.forward pool swz = some res) :
    ∀ b, ((swizzle_tuple res swz).getD b dEnt).id =
      ((swizzle_tuple pool swz).getD b dEnt).id := by
  intro b
  by_cases hb : b < swz.length
  · rw [swizzle_getD hne hb, forward_participant hnd hrange hne hb h,
      swizzle_getD hne hb]
  · rw [getD_oob (by rw [swizzle_len hne]; omega),
      getD_oob (by rw [swizzle_len hne]; omega)]

theorem backward_swizzle_id {r : Rule} {pool res : List Entity} {swz : List Nat}
    (hnd : swz.Nodup) (hrange : ∀ i ∈ swz, i < pool.length) (hne : ¬swz.isEmpty)
    (h : r.backward pool swz = some res) :
    ∀ b, ((swizzle_tuple res swz).getD b dEnt).id =
      ((swizzle_tuple pool swz).getD b dEnt).id := by
  intro b
  by_cases hb : b < swz.length
  · rw [swizzle_getD hne hb, backward_participant hnd hrange hne hb h,
      swizzle_getD hne hb]
  · rw [getD_oob (by rw [swizzle_len hne]; omega),
      getD_oob (by rw [swizzle_len hne]; omega)]

theorem resolveBinds_eq_of_ids {E E' : List Entity}
    (hid : ∀ b, (E'.getD b dEnt).id = (E.getD b dEnt).id) (bs : List Nat) :
    resolveBinds E' bs = resolveBinds E bs := by
  unfold resolveBinds
  exact List.map_congr_left fun b _ => hid b

theorem tag_match_eq_of_ids {e : Entity} {tag : Tag} {E E' : List Entity}
    (hid : ∀ b, (E'.getD b dEnt).id = (E.getD b dEnt).id) :
    tag_match e tag E' = tag_match e tag E := by
  unfold tag_match
  refine anyCongr fun t _ => ?_
  congr 1
  exact allCongr fun bb _ => by rw [hid bb.2]

theorem mem_zip_map {α β : Type} (f : α → β) (l : List α) (x : β) (y : α)
    (h : (x, y) ∈ (l.map f).zip l) : x = f y := by
  induction l with
  | nil => simp at h
  | cons a l ih =>
    rw [List.map_cons, List.zip_cons_cons] at h
    rcases List.mem_cons.1 h with heq | h
    · rw [Prod.mk.injEq] at heq
      rw [heq.1, heq.2]
    · exact ih h

/-- A resolved tag matches the pattern it was resolved from, in any
pool with the same ids position by position. -/
theorem resolved_tag_matches {E E' : List Entity}
    (hid : ∀ b, (E'.getD b dEnt).id = (E.getD b dEnt).id) (bs : List Nat) :
    (((resolveBinds E bs).zip bs).all
      fun bb => ((E'.getD bb.2 dEnt).id == bb.1)) = true := by
  rw [List.all_eq_true]
  rintro ⟨x, y⟩ hmem
  simp only [resolveBinds] at hmem
  have hx : x = (E.getD y dEnt).id := mem_zip_map _ bs x y hmem
  subst hx
  show ((E'.getD y dEnt).id == (E.getD y dEnt).id) = true
  rw [hid y, beq_self_eq_true]

theorem check_chain_singleton (es : List Entity) (a : AiRule) :
    check_chain (some es) [a] =
      if es.isEmpty then false
      else
        match a.rule.forward es a.swizzle with
        | none => false
        | some es' => !es'.isEmpty := by
  rw [check_chain_some]
  by_cases h : es.isEmpty
  · rw [if_pos h, if_pos h]
  · rw [if_neg h, if_neg h]
    show check_chain_go es [a] = _
    rw [check_chain_go]
    rcases hx : a.rule.forward es a.swizzle with - | es'
    · rfl
    · cases h2 : es'.isEmpty with
      | true => simp [h2]
      | false => simp [h2, check_chain_go]

/-- C4 (amended): the round trip's regression step is not guaranteed —
`backward` after a successful `forward` can return `None`, even for a
sign-coherent rule on a well-formed assignment (the counterexample
satisfies every rule-side hypothesis below).  What does hold is the
replay half of the round trip: if `forward(pool, swz)` succeeds with
`P1` *and* `backward(P1, swz)` also succeeds with `P2`, and neither
the preconditions nor the postconditions mix signs on one tag name of
one participant (weak bind matching otherwise lets the regression's
re-added precondition tags clash with or shadow other tags), then
replaying the single-rule chain from `P2` through the chain validator
succeeds and the reached state satisfies every postcondition under the
same assignment. -/
theorem claim_C4_amended (r : Rule) (pool P1 P2 : List Entity) (swz : List Nat)
    (hnd : swz.Nodup) (hrange : ∀ i ∈ swz, i < pool.length) (hne : swz ≠ [])
    (hwf : ∀ p ∈ r.pre ++ r.post, p.entity < swz.length)
    (hpre_coh : ∀ p ∈ r.pre, ∀ q ∈ r.pre, p.entity = q.entity →
      p.tag.tag = q.tag.tag → p.sign = q.sign)
    (hpost_coh : ∀ p ∈ r.post, ∀ q ∈ r.post, p.entity = q.entity →
      p.tag.tag = q.tag.tag → p.sign = q.sign)
    (hfwd : r.forward pool swz = some P1)
    (hbwd : r.backward P1 swz = some P2) :
    ∃ F, r.forward P2 swz = some F ∧
      check_chain (some P2) [AiRule.mk r swz] = true ∧
      ∀ p ∈ r.post, pattern_match p (swizzle_tuple F swz) = true := by
  have hne' : ¬swz.isEmpty := by simpa [List.isEmpty_iff] using hne
  have hlen1 : P1.length = pool.length := forward_length hne' hfwd
  have hrange1 : ∀ i ∈ swz, i < P1.length := fun i hi => hlen1 ▸ hrange i hi
  have hlen2 : P2.length = P1.length := backward_length hne' hbwd
  have hrange2 : ∀ i ∈ swz, i < P2.length := fun i hi => hlen2 ▸ hrange1 i hi
  have hid1 : ∀ b, ((swizzle_tuple P1 swz).getD b dEnt).id =
      ((swizzle_tuple pool swz).getD b dEnt).id :=
    forward_swizzle_id hnd hrange hne' hfwd
  have hid2 : ∀ b, ((swizzle_tuple P2 swz).getD b dEnt).id =
      ((swizzle_tuple P1 swz).getD b dEnt).id :=
    backward_swizzle_id hnd hrange1 hne' hbwd
  have hid20 : ∀ b, ((swizzle_tuple P2 swz).getD b dEnt).id =
      ((swizzle_tuple pool swz).getD b dEnt).id :=
    fun b => (hid2 b).trans (hid1 b)
  have hlene : (swizzle_tuple pool swz).length = swz.length := swizzle_len hne'
  have hlene1 : (swizzle_tuple P1 swz).length = swz.length := swizzle_len hne'
  have hlene2 : (swizzle_tuple P2 swz).length = swz.length := swizzle_len hne'
  have hP1tags : ∀ k, k < swz.length → ((swizzle_tuple P1 swz).getD k dEnt).tags =
      (r.post.foldl (applyPost (swizzle_tuple pool swz))
        ((swizzle_tuple pool swz).map
          fun e => (e.tags.filter fun t => !t.tag.data.contains '!').dedup)).getD k [] := by
    intro k hk
    rw [swizzle_getD hne' hk, forward_participant hnd hrange hne' hk hfwd]
  have hP2tags : ∀ k, k < swz.length → ((swizzle_tuple P2 swz).getD k dEnt).tags =
      (backwardSets r (swizzle_tuple P1 swz)).1.getD k [] := by
    intro k hk
    rw [swizzle_getD hne' hk, backward_participant hnd hrange1 hne' hk hbwd]
  have hinit1 : AllNodup ((swizzle_tuple P1 swz).map fun e => e.tags.dedup) := by
    intro ts hts; rcases List.mem_map.1 hts with ⟨e, -, rfl⟩; exact List.nodup_dedup _
  have hinit2 : AllNodup ((swizzle_tuple P1 swz).map fun e => e.notags.dedup) := by
    intro ts hts; rcases List.mem_map.1 hts with ⟨e, -, rfl⟩; exact List.nodup_dedup _
  obtain ⟨hpreP, -⟩ := forward_some_eq hfwd
  have hprecheck : ∀ p ∈ r.pre, pattern_match p (swizzle_tuple P2 swz) = true := by
    intro p hp
    have hpk : p.entity < swz.length := hwf p (List.mem_append.2 (Or.inl hp))
    have hklen : p.entity < (r.post.foldl (applyPostBack (swizzle_tuple P1 swz))
        ((swizzle_tuple P1 swz).map fun e => e.tags.dedup,
          (swizzle_tuple P1 swz).map fun e => e.notags.dedup)).1.length := by
      rw [(foldl_postBack_len _ _ _).1]
      simp only [List.length_map]
      omega
    cases hs : p.sign with
    | true =>
      have hmem : (⟨p.tag.tag, resolveBinds (swizzle_tuple P1 swz) p.tag.binds⟩ : Tag) ∈
          ((swizzle_tuple P2 swz).getD p.entity dEnt).tags := by
        rw [hP2tags p.entity hpk, backwardSets]
        exact (mem_preBack_tags hklen).2 (Or.inl ⟨p, hp, hs, rfl, rfl⟩)
      have htm : tag_match ((swizzle_tuple P2 swz).getD p.entity dEnt) p.tag
          (swizzle_tuple P2 swz) = true := by
        unfold tag_match
        rw [List.any_eq_true]
        refine ⟨_, hmem, ?_⟩
        rw [Bool.and_eq_true]
        exact ⟨beq_self_eq_true _, resolved_tag_matches hid2 p.tag.binds⟩
      unfold pattern_match
      rw [htm, hs]
      rfl
    | false =>
      have hnomatch : tag_match ((swizzle_tuple P2 swz).getD p.entity dEnt) p.tag
          (swizzle_tuple P2 swz) = false := by
        rw [Bool.eq_false_iff]
        intro hcon
        unfold tag_match at hcon
        rw [List.any_eq_true] at hcon
        obtain ⟨t, htmem, hcond⟩ := hcon
        rw [Bool.and_eq_true] at hcond
        have htname : t.tag = p.tag.tag := beq_iff_eq.1 hcond.1
        rw [hP2tags p.entity hpk, backwardSets] at htmem
        rcases (mem_preBack_tags hklen).1 htmem with ⟨q, hq, hq1, hq2, hq3⟩ | htpost
        · have hname : q.tag.tag = p.tag.tag := by rw [hq3] at htname; exact htname
          have := hpre_coh q hq p hp hq2 hname
          rw [hs, hq1] at this
          exact absurd this (by simp)
        · obtain ⟨htinit, hall⟩ := (mem_postBack_tags hinit1 hinit2).1 htpost
          rw [getD_map_lt _ (show p.entity < (swizzle_tuple P1 swz).length by omega)
            [] dEnt] at htinit
          have ht1 : t ∈ ((swizzle_tuple P1 swz).getD p.entity dEnt).tags :=
            List.mem_dedup.1 htinit
          rw [hP1tags p.entity hpk] at ht1
          rcases mem_foldl_applyPost ht1 with hstr | ⟨q, hq, hq1, hq2, hq3⟩
          · rw [getD_map_lt _ (show p.entity < (swizzle_tuple pool swz).length by omega)
              [] dEnt] at hstr
            have ht0 : t ∈ ((swizzle_tuple pool swz).getD p.entity dEnt).tags :=
              (List.mem_filter.1 (List.mem_dedup.1 hstr)).1
            have hpm := List.all_eq_true.1 hpreP p hp
            unfold pattern_match at hpm
            rw [hs] at hpm
            have hfm : tag_match ((swizzle_tuple pool swz).getD p.entity dEnt) p.tag
                (swizzle_tuple pool swz) = false := by
              cases hx : tag_match ((swizzle_tuple pool swz).getD p.entity dEnt) p.tag
                (swizzle_tuple pool swz)
              · rfl
              · rw [hx] at hpm; simp at hpm
            have : tag_match ((swizzle_tuple pool swz).getD p.entity dEnt) p.tag
                (swizzle_tuple pool swz) = true := by
              unfold tag_match
              rw [List.any_eq_true]
              refine ⟨t, ht0, ?_⟩
              rw [Bool.and_eq_true]
              refine ⟨hcond.1, ?_⟩
              have hcv : (t.binds.zip p.tag.binds).all
                  (fun bb => ((swizzle_tuple P2 swz).getD bb.2 dEnt).id == bb.1) =
                  (t.binds.zip p.tag.binds).all
                  (fun bb => ((swizzle_tuple pool swz).getD bb.2 dEnt).id == bb.1) :=
                allCongr fun bb _ => by rw [hid20 bb.2]
              rw [← hcv]
              exact hcond.2
            rw [this] at hfm
            simp at hfm
          · exact hall q hq ⟨hq1, hq2, by
              rw [hq3, resolveBinds_eq_of_ids hid1]⟩
      unfold pattern_match
      rw [hnomatch, hs]
      rfl
  have hguard2 : r.pre.all (fun p => pattern_match p (swizzle_tuple P2 swz)) = true :=
    List.all_eq_true.2 hprecheck
  have hF : r.forward P2 swz = some (unswizzle_tuple P2
      ((swizzle_tuple P2 swz).zipWith (fun e t => Entity.mk e.id e.name t [])
        (r.post.foldl (applyPost (swizzle_tuple P2 swz))
          ((swizzle_tuple P2 swz).map
            fun e => (e.tags.filter fun t => !t.tag.data.contains '!').dedup))) swz) := by
    unfold Rule.forward
    rw [if_pos hguard2]
  have hpoolpos : 0 < pool.length := by
    cases swz with
    | nil => exact absurd rfl hne
    | cons i swz' =>
      have := hrange i (List.mem_cons_self _ _)
      omega
  have hP2ne : ¬P2.isEmpty := by
    rw [List.isEmpty_iff]
    intro h
    rw [h] at hlen2
    simp at hlen2
    omega
  set F := unswizzle_tuple P2
      ((swizzle_tuple P2 swz).zipWith (fun e t => Entity.mk e.id e.name t [])
        (r.post.foldl (applyPost (swizzle_tuple P2 swz))
          ((swizzle_tuple P2 swz).map
            fun e => (e.tags.filter fun t => !t.tag.data.contains '!').dedup))) swz
    with hFdef
  have hlenF : F.length = P2.length := forward_length hne' hF
  have hFne : ¬F.isEmpty := by
    rw [List.isEmpty_iff]
    intro h
    rw [h] at hlenF
    simp at hlenF
    omega
  have hchk : check_chain (some P2) [AiRule.mk r swz] = true := by
    rw [check_chain_singleton, if_neg hP2ne]
    show (match r.forward P2 swz with
      | none => false
      | some es' => !es'.isEmpty) = true
    rw [hF]
    simpa using hFne
  have hrangeF : ∀ i ∈ swz, i < F.length := fun i hi => by
    rw [hlenF]; exact hrange2 i hi
  have hidF : ∀ b, ((swizzle_tuple F swz).getD b dEnt).id =
      ((swizzle_tuple P2 swz).getD b dEnt).id :=
    forward_swizzle_id hnd hrange2 hne' hF
  have hFtags : ∀ k, k < swz.length → ((swizzle_tuple F swz).getD k dEnt).tags =
      (r.post.foldl (applyPost (swizzle_tuple P2 swz))
        ((swizzle_tuple P2 swz).map
          fun e => (e.tags.filter fun t => !t.tag.data.contains '!').dedup)).getD k [] := by
    intro k hk
    rw [swizzle_getD hne' hk, forward_participant hnd hrange2 hne' hk hF]
  have hposts : ∀ p ∈ r.post, pattern_match p (swizzle_tuple F swz) = true := by
    intro p hp
    have hpk : p.entity < swz.length := hwf p (List.mem_append.2 (Or.inr hp))
    have hacc : p.entity < ((swizzle_tuple P2 swz).map
        (fun e => (e.tags.filter fun t => !t.tag.data.contains '!').dedup)).length := by
      rw [List.length_map]; omega
    cases hs : p.sign with
    | true =>
      have hmem : (⟨p.tag.tag, resolveBinds (swizzle_tuple P2 swz) p.tag.binds⟩ : Tag) ∈
          ((swizzle_tuple F swz).getD p.entity dEnt).tags := by
        rw [hFtags p.entity hpk]
        exact foldl_applyPost_pos hp hs rfl hacc (fun q hq => hpost_coh q hq p hp)
      have htm : tag_match ((swizzle_tuple F swz).getD p.entity dEnt) p.tag
          (swizzle_tuple F swz) = true := by
        unfold tag_match
        rw [List.any_eq_true]
        refine ⟨_, hmem, ?_⟩
        rw [Bool.and_eq_true]
        exact ⟨beq_self_eq_true _, resolved_tag_matches hidF p.tag.binds⟩
      unfold pattern_match
      rw [htm, hs]
      rfl
    | false =>
      have hnomatch : tag_match ((swizzle_tuple F swz).getD p.entity dEnt) p.tag
          (swizzle_tuple F swz) = false := by
        rw [Bool.eq_false_iff]
        intro hcon
        unfold tag_match at hcon
        rw [List.any_eq_true] at hcon
        obtain ⟨t, htmem, hcond⟩ := hcon
        rw [Bool.and_eq_true] at hcond
        have htname : t.tag = p.tag.tag := beq_iff_eq.1 hcond.1
        rw [hFtags p.entity hpk] at htmem
        exact foldl_applyPost_neg hp hs rfl (fun q hq => hpost_coh q hq p hp) t htmem htname
      unfold pattern_match
      rw [hnomatch, hs]
      rfl
  exact ⟨F, hF, hchk, hposts⟩

/-- C4 (counterexample): `cexRuleC4`'s precondition `+hold` matches the
existing `hold(0)` weakly, and its postcondition adds `hold(1)`;
forward succeeds leaving two `hold` tags, and `backward` on the result
discards only the resolved `hold(1)` and re-adds the bare `hold`,
tripping the tag-name-uniqueness validation: the regression of a
just-completed forward application returns `None`, so the round trip
as claimed fails at its first step.  The failure is not an artifact of
degenerate rules: `cexRuleC4` is sign-coherent (no tag name appears
with both signs among its preconditions or among its postconditions),
its pattern indices fit the assignment, and the assignment `[0, 1]` is
duplicate-free, in range and non-empty — so no proviso of that shape
can make the regression's success a consequence of forward's. -/
theorem claim_C4_counterexample :
    cexRuleC4.forward [⟨0, "x", [⟨"hold", [0]⟩], []⟩, ⟨1, "d", [], []⟩] [0, 1] =
      some [⟨0, "x", [⟨"hold", [1]⟩, ⟨"hold", [0]⟩], []⟩, ⟨1, "d", [], []⟩] ∧
    cexRuleC4.backward [⟨0, "x", [⟨"hold", [1]⟩, ⟨"hold", [0]⟩], []⟩, ⟨1, "d", [], []⟩]
      [0, 1] = none ∧
    ([0, 1] : List Nat).Nodup ∧
    (∀ i ∈ ([0, 1] : List Nat),
      i < ([⟨0, "x", [⟨"hold", [0]⟩], []⟩, ⟨1, "d", [], []⟩] : List Entity).length) ∧
    ([0, 1] : List Nat) ≠ [] ∧
    (∀ p ∈ cexRuleC4.pre ++ cexRuleC4.post, p.entity < ([0, 1] : List Nat).length) ∧
    (∀ p ∈ cexRuleC4.pre, ∀ q ∈ cexRuleC4.pre, p.entity = q.entity →
      p.tag.tag = q.tag.tag → p.sign = q.sign) ∧
    (∀ p ∈ cexRuleC4.post, ∀ q ∈ cexRuleC4.post, p.entity = q.entity →
      p.tag.tag = q.tag.tag → p.sign = q.sign) := by
  refine ⟨by decide, by decide, by decide, by decide, by decide, by decide, by decide,
    by decide⟩

/-- A sign-coherent one-participant rule: `+dwarf` yields `+hold`. -/
def roundRule : Rule :=
  ⟨"r", ["x"], [⟨true, 0, ⟨"dwarf", []⟩⟩], [⟨true, 0, ⟨"hold", []⟩⟩]⟩

/-- C4 witness: the amended round trip at `roundRule`: forward from a
`dwarf` entity, backward on the result, replay through the validator,
postconditions satisfied. -/
theorem claim_C4_witness :
    (roundRule.forward [⟨0, "x", [⟨"dwarf", []⟩], []⟩] [0] =
      some [⟨0, "x", [⟨"hold", []⟩, ⟨"dwarf", []⟩], []⟩]) ∧
    (roundRule.backward [⟨0, "x", [⟨"hold", []⟩, ⟨"dwarf", []⟩], []⟩] [0] =
      some [⟨0, "x", [⟨"dwarf", []⟩], []⟩]) ∧
    (∃ F, roundRule.forward [⟨0, "x", [⟨"dwarf", []⟩], []⟩] [0] = some F ∧
      check_chain (some [⟨0, "x", [⟨"dwarf", []⟩], []⟩]) [AiRule.mk roundRule [0]] = true ∧
      ∀ p ∈ roundRule.post, pattern_match p (swizzle_tuple F [0]) = true) :=
  ⟨by decide, by decide,
    claim_C4_amended roundRule [⟨0, "x", [⟨"dwarf", []⟩], []⟩]
      [⟨0, "x", [⟨"hold", []⟩, ⟨"dwarf", []⟩], []⟩] [⟨0, "x", [⟨"dwarf", []⟩], []⟩] [0]
      (by decide) (by decide) (by decide) (by decide) (by decide) (by decide)
      (by decide) (by decide)⟩


theorem set_perm {α : Type} (l : List α) (i : Nat) (a : α) (h : i < l.length) :
    (l.set i a).Perm (a :: l.eraseIdx i) := by
  induction l generalizing i with
  | nil => simp at h
  | cons x xs ih =>
    cases i with
    | zero => simp
    | succ i =>
      rw [List.set_cons_succ, List.eraseIdx_cons_succ]
      exact ((ih i (by simpa using h)).cons x).trans (List.Perm.swap _ _ _)

theorem set_getD_self {α : Type} (l : List α) (d : α) {i : Nat} (h : i < l.length) :
    l.set i (l.getD i d) = l := by
  induction l generalizing i with
  | nil => rfl
  | cons x xs ih =>
    cases i with
    | zero => rfl
    | succ i => rw [List.getD_cons_succ, List.set_cons_succ, ih (by simpa using h)]

/-- Writing the value at `j` over position `i` and then a fresh value at
`j` permutes to writing the fresh value at `i` directly. -/
theorem set_set_getD_perm {α : Type} (l : List α) (d : α) {i j : Nat} (a : α)
    (hi : i < l.length) (hj : j < l.length) (hij : i ≠ j) :
    ((l.set i (l.getD j d)).set j a).Perm (l.set i a) := by
  induction l generalizing i j with
  | nil => simp at hi
  | cons x xs ih =>
    cases i with
    | zero =>
      cases j with
      | zero => exact absurd rfl hij
      | succ j =>
        rw [List.getD_cons_succ, List.set_cons_zero, List.set_cons_succ,
          List.set_cons_zero]
        have h1 : (xs.set j a).Perm (a :: xs.eraseIdx j) :=
          set_perm _ _ _ (by simpa using hj)
        have h2 : xs.Perm (xs.getD j d :: xs.eraseIdx j) := by
          have h3 := set_perm xs j (xs.getD j d) (by simpa using hj)
          rwa [set_getD_self xs d (by simpa using hj)] at h3
        exact ((h1.cons _).trans (List.Perm.swap _ _ _)).trans (h2.cons a).symm
    | succ i =>
      cases j with
      | zero =>
        rw [List.getD_cons_zero, List.set_cons_succ, List.set_cons_zero,
          List.set_cons_succ]
        have h1 : (xs.set i x).Perm (x :: xs.eraseIdx i) :=
          set_perm _ _ _ (by simpa using hi)
        have h2 : (xs.set i a).Perm (a :: xs.eraseIdx i) :=
          set_perm _ _ _ (by simpa using hi)
        exact ((h1.cons a).trans (List.Perm.swap _ _ _)).trans (h2.cons x).symm
      | succ j =>
        rw [List.getD_cons_succ, List.set_cons_succ, List.set_cons_succ,
          List.set_cons_succ]
        exact (ih (by simpa using hi) (by simpa using hj)
          (fun hc => hij (by rw [hc]))).cons x

/-- `_siftdown` permutes the heap it would have produced by writing the
new item at the starting position. -/
theorem siftdownGo_perm {α : Type} (lt : α → α → Bool) (d : α) (s : Nat) :
    ∀ (fuel : Nat) (heap : List α) (pos : Nat) (item : α), pos < heap.length →
      (siftdownGo lt d s fuel heap pos item).Perm (heap.set pos item) := by
  intro fuel
  induction fuel with
  | zero => intro heap pos item _; exact List.Perm.refl _
  | succ fuel ih =>
    intro heap pos item h
    simp only [siftdownGo]
    by_cases hs : s < pos
    · rw [if_pos hs]
      by_cases hlt : lt item (heap.getD ((pos - 1) / 2) d) = true
      · rw [if_pos hlt]
        have hpar : (pos - 1) / 2 < heap.length := by omega
        have hstep := ih (heap.set pos (heap.getD ((pos - 1) / 2) d))
          ((pos - 1) / 2) item (by rw [List.length_set]; exact hpar)
        exact hstep.trans (set_set_getD_perm heap d item h hpar (by omega))
      · rw [if_neg hlt]
    · rw [if_neg hs]

/-- `heappush` permutes consing the item onto the heap. -/
theorem heappush_perm {α : Type} (lt : α → α → Bool) (d : α) (heap : List α)
    (item : α) : (heappush lt d heap item).Perm (item :: heap) := by
  have h1 := siftdownGo_perm lt d 0 heap.length (heap ++ [item]) heap.length item
    (by simp)
  have h2 : (heap ++ [item]).set heap.length item = heap ++ [item] := by
    rw [List.set_append_right _ _ (Nat.le_refl _)]
    simp
  rw [heappush]
  exact (h1.trans (by rw [h2])).trans (List.perm_append_singleton _ _)

/-- The `_siftup` loop: the final position is in range, the length is
preserved, and writing any item at the final position permutes writing
it at the original position. -/
theorem siftupGo_spec {α : Type} (lt : α → α → Bool) (d : α) :
    ∀ (fuel : Nat) (heap : List α) (pos : Nat), pos < heap.length →
      (siftupGo lt d fuel heap pos).2 < (siftupGo lt d fuel heap pos).1.length ∧
      (siftupGo lt d fuel heap pos).1.length = heap.length ∧
      ∀ item, (((siftupGo lt d fuel heap pos).1.set
          (siftupGo lt d fuel heap pos).2 item)).Perm (heap.set pos item) := by
  intro fuel
  induction fuel with
  | zero => intro heap pos h; exact ⟨h, rfl, fun item => List.Perm.refl _⟩
  | succ fuel ih =>
    intro heap pos h
    simp only [siftupGo]
    by_cases hc : 2 * pos + 1 < heap.length
    · rw [if_pos hc]
      have hcp : siftupChild lt d heap pos < heap.length := by
        rw [siftupChild]
        by_cases hr : (2 * pos + 2 < heap.length &&
            !lt (heap.getD (2 * pos + 1) d) (heap.getD (2 * pos + 2) d)) = true
        · rw [if_pos hr]
          exact of_decide_eq_true ((Bool.and_eq_true _ _).mp hr).1
        · rw [if_neg hr]; exact hc
      have hne : pos ≠ siftupChild lt d heap pos := by
        have : 2 * pos + 1 ≤ siftupChild lt d heap pos := by
          rw [siftupChild]; split <;> omega
        omega
      obtain ⟨ih1, ih2, ih3⟩ := ih
        (heap.set pos (heap.getD (siftupChild lt d heap pos) d))
        (siftupChild lt d heap pos) (by rw [List.length_set]; exact hcp)
      refine ⟨ih1, by rw [ih2, List.length_set], fun item => ?_⟩
      exact (ih3 item).trans (set_set_getD_perm heap d item h hcp hne)
    · rw [if_neg hc]
      exact ⟨h, rfl, fun item => List.Perm.refl _⟩

/-- `_siftup` permutes the heap. -/
theorem siftup_perm {α : Type} (lt : α → α → Bool) (d : α) (heap : List α)
    (pos : Nat) (h : pos < heap.length) : (siftup lt d heap pos).Perm heap := by
  obtain ⟨h1, h2, h3⟩ := siftupGo_spec lt d heap.length heap pos h
  rw [siftup]
  have h4 := siftdownGo_perm lt d pos (siftupGo lt d heap.length heap pos).2
    ((siftupGo lt d heap.length heap pos).1.set
      (siftupGo lt d heap.length heap pos).2 (heap.getD pos d))
    (siftupGo lt d heap.length heap pos).2 (heap.getD pos d)
    (by rw [List.length_set]; exact h1)
  rw [List.set_set] at h4
  exact (h4.trans (h3 _)).trans (by rw [set_getD_self heap d h])

/-- `heappop` permutes the heap into the returned root and rest. -/
theorem heappop_perm {α : Type} (lt : α → α → Bool) (d : α) (heap : List α)
    (h : heap ≠ []) :
    heap.Perm ((heappop lt d heap).1 :: (heappop lt d heap).2) := by
  match heap with
  | [a] => simp [heappop]
  | a :: b :: t =>
    have hne : (a :: b :: t) ≠ [] := by simp
    have hdl : (a :: b :: t).dropLast = a :: (b :: t).dropLast := rfl
    have hpop : heappop lt d (a :: b :: t)
        = ((a :: (b :: t).dropLast).getD 0 d,
           siftup lt d ((a :: (b :: t).dropLast).set 0
             ((a :: b :: t).getLast?.getD d)) 0) := by
      rw [heappop, hdl, if_neg (by simp)]
    rw [hpop]
    have hsift := siftup_perm lt d
      ((a :: (b :: t).dropLast).set 0 ((a :: b :: t).getLast?.getD d)) 0
      (by simp)
    rw [List.set_cons_zero] at hsift
    have hsplit : (a :: (b :: t).dropLast) ++ [(a :: b :: t).getLast?.getD d]
        = a :: b :: t := by
      rw [List.getLast?_eq_getLast _ hne, Option.getD_some, ← hdl]
      exact List.dropLast_append_getLast hne
    have hc1 : ((a :: (b :: t).dropLast) ++
        [(a :: b :: t).getLast?.getD d]).Perm
        ((a :: b :: t).getLast?.getD d :: a :: (b :: t).dropLast) :=
      List.perm_append_singleton _ _
    have hc2 : ((a :: b :: t).getLast?.getD d :: a :: (b :: t).dropLast).Perm
        (a :: (a :: b :: t).getLast?.getD d :: (b :: t).dropLast) :=
      List.Perm.swap _ _ _
    have hc3 : (a :: (a :: b :: t).getLast?.getD d :: (b :: t).dropLast).Perm
        (a :: siftup lt d
          ((a :: b :: t).getLast?.getD d :: (b :: t).dropLast) 0) :=
      hsift.symm.cons a
    have hfin := (hc1.trans hc2).trans hc3
    rw [hsplit] at hfin
    rw [List.getD_cons_zero, List.set_cons_zero]
    exact hfin

/-! ### C9 — the two searches yield the same chains up to order -/

/-- Pushing a list of items onto a heap permutes appending it. -/
theorem foldl_heappush_perm {α : Type} (lt : α → α → Bool) (d : α) :
    ∀ (xs heap : List α), (xs.foldl (heappush lt d) heap).Perm (xs ++ heap) := by
  intro xs
  induction xs with
  | nil => intro heap; exact List.Perm.refl _
  | cons x xs ih =>
    intro heap
    rw [List.foldl_cons]
    refine (ih (heappush lt d heap x)).trans ?_
    exact (List.Perm.append_left xs (heappush_perm lt d heap x)).trans List.perm_middle

/-- The chains a frontier node eventually contributes to the greedy
output, written as the recursion the loop unfolds into: regress the
head application, validate, emit, and recurse into the successor nodes
while the depth budget allows.  The fuel argument only needs to exceed
`maxDepth + 1 - node.chain.length`. -/
def nodeYields (rules : List Rule) (n maxDepth : Nat) : Nat → Node → List AiChain
  | 0, _ => []
  | b + 1, node =>
    if check_chain ((node.chain.headD dAiRule).rule.backward node.entities
        (node.chain.headD dAiRule).swizzle) node.chain then
      AiChain.mk ((node.chain.headD dAiRule).rule.backward node.entities
        (node.chain.headD dAiRule).swizzle) node.chain ::
      (if node.chain.length ≤ maxDepth then
        (greedySuccs rules n
            (((node.chain.headD dAiRule).rule.backward node.entities
              (node.chain.headD dAiRule).swizzle).getD []) node.chain).flatMap
          (nodeYields rules n maxDepth b)
      else [])
    else []

/-- Termination measure of the greedy frontier: each node of chain
length `L` accounts for `(S+1)^(maxDepth+2-L)` loop iterations. -/
def workMeasure (S maxDepth : Nat) (work : List Node) : Nat :=
  (work.map fun nd => (S + 1) ^ (maxDepth + 2 - nd.chain.length)).sum

theorem sum_map_const_of {α : Type} {l : List α} {f : α → Nat} {c : Nat}
    (h : ∀ a ∈ l, f a = c) : (l.map f).sum = l.length * c := by
  induction l with
  | nil => simp
  | cons x xs ih =>
    rw [List.map_cons, List.sum_cons, h x (List.mem_cons_self _ _), List.length_cons,
      ih (fun a ha => h a (List.mem_cons_of_mem _ ha))]
    ring

/-- The greedy loop, run with enough fuel on a frontier of depth-bounded
nodes, emits exactly the chains the frontier nodes contribute — as a
multiset (the loop interleaves contributions in heap order). -/
theorem greedyLoop_perm (rules : List Rule) (n maxDepth : Nat) :
    ∀ (fuel : Nat) (work : List Node),
      (∀ nd ∈ work, nd.chain.length ≤ maxDepth + 1) →
      workMeasure (candList rules n).length maxDepth work ≤ fuel →
      (greedyLoop rules n maxDepth fuel work).Perm
        (work.flatMap fun nd =>
          nodeYields rules n maxDepth (maxDepth + 2 - nd.chain.length) nd) := by
  intro fuel
  induction fuel with
  | zero =>
    intro work hwf hm
    cases work with
    | nil => exact List.Perm.refl []
    | cons nd rest =>
      exfalso
      have h1 : 0 < ((candList rules n).length + 1) ^ (maxDepth + 2 - nd.chain.length) :=
        Nat.pow_pos (by omega)
      simp only [workMeasure, List.map_cons, List.sum_cons] at hm
      omega
  | succ fuel ih =>
    intro work hwf hm
    rw [greedyLoop]
    by_cases hemp : work.isEmpty
    · rw [if_pos hemp]
      rw [List.isEmpty_iff.mp hemp]
      exact List.Perm.refl []
    · rw [if_neg hemp]
      simp only []
      have hne : work ≠ [] := fun h => by rw [h] at hemp; exact hemp rfl
      set f := (fun nd : Node =>
        nodeYields rules n maxDepth (maxDepth + 2 - nd.chain.length) nd) with hfdef
      set S := (candList rules n).length with hS
      set nd := (heappop nodePyLt dNode work).1 with hnd
      set rest := (heappop nodePyLt dNode work).2 with hrest
      have hpop : work.Perm (nd :: rest) := heappop_perm nodePyLt dNode work hne
      have hlen : nd.chain.length ≤ maxDepth + 1 :=
        hwf nd (hpop.mem_iff.mpr (List.mem_cons_self _ _))
      have hb : maxDepth + 2 - nd.chain.length = (maxDepth + 1 - nd.chain.length) + 1 := by
        omega
      have hmsplit : workMeasure S maxDepth work =
          (S + 1) ^ (maxDepth + 2 - nd.chain.length) + workMeasure S maxDepth rest := by
        have h1 := (hpop.map fun x => (S + 1) ^ (maxDepth + 2 - x.chain.length)).sum_eq
        simp only [workMeasure]
        rw [h1, List.map_cons, List.sum_cons]
      have hflat : (work.flatMap f).Perm (f nd ++ rest.flatMap f) := by
        have h1 := List.Perm.flatMap_right f hpop
        rwa [List.flatMap_cons] at h1
      have hwfrest : ∀ x ∈ rest, x.chain.length ≤ maxDepth + 1 := fun x hx =>
        hwf x (hpop.mem_iff.mpr (List.mem_cons_of_mem _ hx))
      have hpos : 0 < (S + 1) ^ (maxDepth + 2 - nd.chain.length) := Nat.pow_pos (by omega)
      by_cases hchk : check_chain ((nd.chain.headD dAiRule).rule.backward nd.entities
          (nd.chain.headD dAiRule).swizzle) nd.chain = true
      · rw [if_pos hchk]
        have hfnd : f nd =
            AiChain.mk ((nd.chain.headD dAiRule).rule.backward nd.entities
              (nd.chain.headD dAiRule).swizzle) nd.chain ::
            (if nd.chain.length ≤ maxDepth then
              (greedySuccs rules n
                  (((nd.chain.headD dAiRule).rule.backward nd.entities
                    (nd.chain.headD dAiRule).swizzle).getD []) nd.chain).flatMap
                (nodeYields rules n maxDepth (maxDepth + 1 - nd.chain.length))
            else []) := by
          rw [hfdef]
          simp only []
          rw [hb, nodeYields, if_pos hchk]
        by_cases hdep : nd.chain.length ≤ maxDepth
        · rw [if_pos hdep]
          rw [if_pos hdep] at hfnd
          set es := ((nd.chain.headD dAiRule).rule.backward nd.entities
            (nd.chain.headD dAiRule).swizzle).getD [] with hes
          set succs := greedySuccs rules n es nd.chain with hsuccs
          have hWperm : (succs.foldl (heappush nodePyLt dNode) rest).Perm (succs ++ rest) :=
            foldl_heappush_perm _ _ _ _
          have hinv : ∀ x ∈ succs.foldl (heappush nodePyLt dNode) rest,
              x.chain.length ≤ maxDepth + 1 := by
            intro x hx
            rcases List.mem_append.1 (hWperm.mem_iff.mp hx) with hx | hx
            · rw [hsuccs] at hx
              simp only [greedySuccs] at hx
              rcases List.mem_map.1 hx with ⟨c, -, rfl⟩
              simpa using Nat.succ_le_succ hdep
            · exact hwfrest x hx
          have hmsuccs : workMeasure S maxDepth succs =
              S * (S + 1) ^ (maxDepth + 1 - nd.chain.length) := by
            simp only [hsuccs, greedySuccs, workMeasure, List.map_map]
            rw [sum_map_const_of (c := (S + 1) ^ (maxDepth + 1 - nd.chain.length)) ?step,
              ← hS]
            case step =>
              intro c _
              show (S + 1) ^ (maxDepth + 2 - (c :: nd.chain).length) =
                (S + 1) ^ (maxDepth + 1 - nd.chain.length)
              congr 1
              rw [List.length_cons]
              omega
          have hmW : workMeasure S maxDepth
              (succs.foldl (heappush nodePyLt dNode) rest) ≤ fuel := by
            have h1 : workMeasure S maxDepth (succs.foldl (heappush nodePyLt dNode) rest) =
                workMeasure S maxDepth succs + workMeasure S maxDepth rest := by
              have h2 := (hWperm.map fun x =>
                (S + 1) ^ (maxDepth + 2 - x.chain.length)).sum_eq
              simp only [workMeasure]
              rw [h2, List.map_append, List.sum_append]
            have hX : 0 < (S + 1) ^ (maxDepth + 1 - nd.chain.length) :=
              Nat.pow_pos (by omega)
            have hsplit2 : (S + 1) ^ (maxDepth + 2 - nd.chain.length) =
                S * (S + 1) ^ (maxDepth + 1 - nd.chain.length) +
                  (S + 1) ^ (maxDepth + 1 - nd.chain.length) := by
              rw [hb, pow_succ]
              ring
            rw [h1, hmsuccs]
            omega
          have h3 : succs.flatMap f = succs.flatMap
              (nodeYields rules n maxDepth (maxDepth + 1 - nd.chain.length)) := by
            rw [hsuccs]
            simp only [greedySuccs, List.flatMap_map]
            congr 1
            funext c
            rw [hfdef]
            show nodeYields rules n maxDepth
                (maxDepth + 2 - (c :: nd.chain).length) (Node.mk 1 es (c :: nd.chain)) =
              nodeYields rules n maxDepth (maxDepth + 1 - nd.chain.length)
                (Node.mk 1 es (c :: nd.chain))
            congr 1
            rw [List.length_cons]
            omega
          have h2 : (greedyLoop rules n maxDepth fuel
              (succs.foldl (heappush nodePyLt dNode) rest)).Perm
              (succs.flatMap
                (nodeYields rules n maxDepth (maxDepth + 1 - nd.chain.length)) ++
               rest.flatMap f) := by
            refine (ih _ hinv hmW).trans ?_
            refine (List.Perm.flatMap_right f hWperm).trans ?_
            rw [List.flatMap_append, h3]
          have h4 : (work.flatMap f).Perm
              (AiChain.mk ((nd.chain.headD dAiRule).rule.backward nd.entities
                (nd.chain.headD dAiRule).swizzle) nd.chain ::
               (succs.flatMap
                 (nodeYields rules n maxDepth (maxDepth + 1 - nd.chain.length)) ++
                rest.flatMap f)) := by
            have h5 := hflat
            rw [hfnd, List.cons_append] at h5
            exact h5
          exact (h2.cons _).trans h4.symm
        · rw [if_neg hdep]
          rw [if_neg hdep] at hfnd
          have h2 := (ih rest hwfrest (by omega)).cons
            (AiChain.mk ((nd.chain.headD dAiRule).rule.backward nd.entities
              (nd.chain.headD dAiRule).swizzle) nd.chain)
          refine h2.trans ?_
          have h5 := hflat
          rw [hfnd] at h5
          exact h5.symm
      · rw [if_neg hchk]
        have hf0 : f nd = [] := by
          rw [hfdef]
          simp only []
          rw [hb, nodeYields, if_neg hchk]
        refine (ih rest hwfrest (by omega)).trans ?_
        have h5 := hflat
        rw [hf0, List.nil_append] at h5
        exact h5.symm

/-- A node whose head regression fails validation contributes nothing,
whatever the fuel. -/
theorem nodeYields_not_valid (rules : List Rule) (n maxDepth b : Nat) (node : Node)
    (h : check_chain ((node.chain.headD dAiRule).rule.backward node.entities
      (node.chain.headD dAiRule).swizzle) node.chain = false) :
    nodeYields rules n maxDepth b node = [] := by
  cases b with
  | zero => rfl
  | succ b => rw [nodeYields, if_neg (by rw [h]; exact Bool.false_ne_true)]

/-- The contribution of a frontier node whose head regression succeeds
and validates is exactly the run of `dumb_step` from the regressed pool
with the remaining depth budget: both iterate the same candidate list
in the same order and recurse identically. -/
theorem nodeYields_eq_dumbStep (rules : List Rule) (n maxDepth : Nat) :
    ∀ (b : Nat) (node : Node) (es : List Entity),
      b = maxDepth + 2 - node.chain.length →
      node.chain.length ≤ maxDepth + 1 →
      (node.chain.headD dAiRule).rule.backward node.entities
        (node.chain.headD dAiRule).swizzle = some es →
      check_chain (some es) node.chain = true →
      nodeYields rules n maxDepth b node =
        dumbStep rules n (maxDepth + 1 - node.chain.length) es node.chain := by
  intro b
  induction b with
  | zero =>
    intro node es hb hlen hbwd hchk
    exact absurd hb (by omega)
  | succ b ih =>
    intro node es hb hlen hbwd hchk
    rw [nodeYields, hbwd, if_pos hchk]
    by_cases hdep : node.chain.length ≤ maxDepth
    · rw [if_pos hdep]
      have hbud : maxDepth + 1 - node.chain.length = (maxDepth - node.chain.length) + 1 := by
        omega
      rw [hbud, dumbStep]
      congr 1
      simp only [Option.getD_some, greedySuccs, List.flatMap_map]
      congr 1
      funext c
      split
      · next hbc =>
        apply nodeYields_not_valid
        show check_chain (c.rule.backward es c.swizzle) (c :: node.chain) = false
        rw [hbc]
        rfl
      · next enext hbc =>
        by_cases hemp2 : enext.isEmpty
        · rw [if_pos hemp2]
          apply nodeYields_not_valid
          show check_chain (c.rule.backward es c.swizzle) (c :: node.chain) = false
          rw [hbc]
          simp [check_chain, hemp2]
        · rw [if_neg hemp2]
          by_cases hchk2 :
              check_chain (some enext) (AiRule.mk c.rule c.swizzle :: node.chain) = true
          · rw [if_pos hchk2]
            have h1 := ih (Node.mk 1 es (c :: node.chain)) enext
              (by simp only [List.length_cons]; omega)
              (by simp only [List.length_cons]; omega)
              (by show c.rule.backward es c.swizzle = some enext; exact hbc)
              (by exact hchk2)
            have h2 : maxDepth + 1 - (c :: node.chain).length =
                maxDepth - node.chain.length := by
              simp only [List.length_cons]
              omega
            rw [h2] at h1
            exact h1
          · rw [if_neg hchk2]
            apply nodeYields_not_valid
            show check_chain (c.rule.backward es c.swizzle) (c :: node.chain) = false
            rw [hbc]
            exact Bool.eq_false_iff.mpr hchk2
    · rw [if_neg hdep]
      have h0 : maxDepth + 1 - node.chain.length = 0 := by omega
      rw [h0, dumbStep]

theorem startEntities_length (n : Nat) : (startEntities n).length = n := by
  simp [startEntities]

theorem startEntities_getD {n i : Nat} (h : i < n) :
    (startEntities n).getD i dEnt = Entity.mk i ("e_" ++ toString i) [] [] := by
  rw [startEntities, getD_map_lt _ (by simpa using h) dEnt 0]
  have h1 : (List.range n).getD i 0 = i := by
    rw [getD_eq_getElem (by simpa using h), List.getElem_range]
  rw [h1]

theorem startEntities_tags_nil (n i : Nat) : ((startEntities n).getD i dEnt).tags = [] := by
  by_cases h : i < n
  · rw [startEntities_getD h]
  · rw [getD_oob (by rw [startEntities_length]; omega)]
    rfl

theorem startEntities_notags_nil (n i : Nat) :
    ((startEntities n).getD i dEnt).notags = [] := by
  by_cases h : i < n
  · rw [startEntities_getD h]
  · rw [getD_oob (by rw [startEntities_length]; omega)]
    rfl

/-- The per-position relation between the tag-set state `Rule.backward`
computes without a swizzle (over the whole `n`-entity pool) and the
state it computes with a prefix swizzle (over the first `m`
participants): the first `m` positions agree and the remaining
positions of the unswizzled state are empty. -/
def EqUpTo (n m : Nat) (A B : List (List Tag)) : Prop :=
  A.length = n ∧ B.length = m ∧ (∀ i, i < m → A.getD i [] = B.getD i []) ∧
    ∀ i, m ≤ i → A.getD i [] = []

theorem equpto_set {n m : Nat} {A B : List (List Tag)} (hmn : m ≤ n)
    (h : EqUpTo n m A B) {pe : Nat} (hpe : pe < m) (v : List Tag) :
    EqUpTo n m (A.set pe v) (B.set pe v) := by
  obtain ⟨h1, h2, h3, h4⟩ := h
  refine ⟨by rw [List.length_set, h1], by rw [List.length_set, h2], ?_, ?_⟩
  · intro i hi
    by_cases hie : i = pe
    · subst hie
      rw [getD_set_self' (by rw [h1]; omega) v, getD_set_self' (by rw [h2]; omega) v]
    · rw [getD_set_ne (Ne.symm hie), getD_set_ne (Ne.symm hie)]
      exact h3 i hi
  · intro i hi
    have hne : pe ≠ i := by omega
    rw [getD_set_ne hne]
    exact h4 i hi

theorem applyPostBack_equpto {n m : Nat} {E W : List Entity}
    {st st' : List (List Tag) × List (List Tag)} {p : Pattern} (hmn : m ≤ n)
    (hrb : resolveBinds W p.tag.binds = resolveBinds E p.tag.binds)
    (hpe : p.entity < m)
    (h1 : EqUpTo n m st.1 st'.1) (h2 : EqUpTo n m st.2 st'.2) :
    EqUpTo n m (applyPostBack E st p).1 (applyPostBack W st' p).1 ∧
      EqUpTo n m (applyPostBack E st p).2 (applyPostBack W st' p).2 := by
  have hg1 : st.1.getD p.entity [] = st'.1.getD p.entity [] := h1.2.2.1 _ hpe
  have hg2 : st.2.getD p.entity [] = st'.2.getD p.entity [] := h2.2.2.1 _ hpe
  cases hs : p.sign <;>
    simp only [applyPostBack, hs, if_true, if_false, Bool.false_eq_true, hrb]
  · exact ⟨h1, by rw [hg2]; exact equpto_set hmn h2 hpe _⟩
  · exact ⟨by rw [hg1]; exact equpto_set hmn h1 hpe _, h2⟩

theorem applyPreBack_equpto {n m : Nat} {E W : List Entity}
    {st st' : List (List Tag) × List (List Tag)} {p : Pattern} (hmn : m ≤ n)
    (hrb : resolveBinds W p.tag.binds = resolveBinds E p.tag.binds)
    (hpe : p.entity < m)
    (h1 : EqUpTo n m st.1 st'.1) (h2 : EqUpTo n m st.2 st'.2) :
    EqUpTo n m (applyPreBack E st p).1 (applyPreBack W st' p).1 ∧
      EqUpTo n m (applyPreBack E st p).2 (applyPreBack W st' p).2 := by
  have hg1 : st.1.getD p.entity [] = st'.1.getD p.entity [] := h1.2.2.1 _ hpe
  have hg2 : st.2.getD p.entity [] = st'.2.getD p.entity [] := h2.2.2.1 _ hpe
  cases hs : p.sign <;>
    simp only [applyPreBack, hs, if_true, if_false, Bool.false_eq_true, hrb]
  · exact ⟨h1, by rw [hg2]; exact equpto_set hmn h2 hpe _⟩
  · exact ⟨by rw [hg1]; exact equpto_set hmn h1 hpe _, h2⟩

theorem foldl_postBack_equpto {n m : Nat} {E W : List Entity} (hmn : m ≤ n)
    (ps : List Pattern)
    (hps : ∀ p ∈ ps, p.entity < m ∧
      resolveBinds W p.tag.binds = resolveBinds E p.tag.binds) :
    ∀ (st st' : List (List Tag) × List (List Tag)),
      EqUpTo n m st.1 st'.1 → EqUpTo n m st.2 st'.2 →
      EqUpTo n m (ps.foldl (applyPostBack E) st).1 (ps.foldl (applyPostBack W) st').1 ∧
        EqUpTo n m (ps.foldl (applyPostBack E) st).2 (ps.foldl (applyPostBack W) st').2 := by
  induction ps with
  | nil => intro st st' h1 h2; exact ⟨h1, h2⟩
  | cons p ps ih =>
    intro st st' h1 h2
    obtain ⟨j1, j2⟩ := applyPostBack_equpto hmn (hps p (List.mem_cons_self _ _)).2
      (hps p (List.mem_cons_self _ _)).1 h1 h2
    exact ih (fun q hq => hps q (List.mem_cons_of_mem _ hq)) _ _ j1 j2

theorem foldl_preBack_equpto {n m : Nat} {E W : List Entity} (hmn : m ≤ n)
    (ps : List Pattern)
    (hps : ∀ p ∈ ps, p.entity < m ∧
      resolveBinds W p.tag.binds = resolveBinds E p.tag.binds) :
    ∀ (st st' : List (List Tag) × List (List Tag)),
      EqUpTo n m st.1 st'.1 → EqUpTo n m st.2 st'.2 →
      EqUpTo n m (ps.foldl (applyPreBack E) st).1 (ps.foldl (applyPreBack W) st').1 ∧
        EqUpTo n m (ps.foldl (applyPreBack E) st).2 (ps.foldl (applyPreBack W) st').2 := by
  induction ps with
  | nil => intro st st' h1 h2; exact ⟨h1, h2⟩
  | cons p ps ih =>
    intro st st' h1 h2
    obtain ⟨j1, j2⟩ := applyPreBack_equpto hmn (hps p (List.mem_cons_self _ _)).2
      (hps p (List.mem_cons_self _ _)).1 h1 h2
    exact ih (fun q hq => hps q (List.mem_cons_of_mem _ hq)) _ _ j1 j2

/-- Two tag-set states related by `EqUpTo` agree on the duplicate-name
validation: the extra positions of the longer state are empty and an
empty set never has a duplicated name. -/
theorem any_dup_equpto {n m : Nat} {A B : List (List Tag)} (hmn : m ≤ n)
    (h : EqUpTo n m A B) : A.any hasDupTagName = B.any hasDupTagName := by
  rw [Bool.eq_iff_iff, List.any_eq_true, List.any_eq_true]
  constructor
  · rintro ⟨x, hx, hdup⟩
    rcases List.mem_iff_getElem.1 hx with ⟨i, hi, rfl⟩
    by_cases him : i < m
    · have hiB : i < B.length := by rw [h.2.1]; omega
      refine ⟨B.getD i [], ?_, ?_⟩
      · rw [getD_eq_getElem hiB]
        exact List.getElem_mem hiB
      · rw [← h.2.2.1 i him, getD_eq_getElem hi]
        exact hdup
    · exfalso
      have h4 := h.2.2.2 i (by omega)
      rw [getD_eq_getElem hi] at h4
      rw [h4] at hdup
      simp [hasDupTagName] at hdup
  · rintro ⟨x, hx, hdup⟩
    rcases List.mem_iff_getElem.1 hx with ⟨i, hi, rfl⟩
    have him : i < m := by rw [h.2.1] at hi; exact hi
    have hiA : i < A.length := by rw [h.1]; omega
    refine ⟨A.getD i [], ?_, ?_⟩
    · rw [getD_eq_getElem hiA]
      exact List.getElem_mem hiA
    · rw [h.2.2.1 i him, getD_eq_getElem hi]
      exact hdup

/-- `Rule.backward` written out: the duplicate-name guard over the
regressed tag state, else the rebuilt participants spliced back. -/
theorem backward_eq_def (r : Rule) (el : List Entity) (swz : List Nat) :
    r.backward el swz =
      if (backwardSets r (swizzle_tuple el swz)).1.any hasDupTagName then none
      else some (unswizzle_tuple el
        ((swizzle_tuple el swz).zipWith (fun e tnt => Entity.mk e.id e.name tnt.1 tnt.2)
          ((backwardSets r (swizzle_tuple el swz)).1.zip
            (backwardSets r (swizzle_tuple el swz)).2)) swz) := rfl

/-- On the synthesized anonymous start pool, regressing the root rule
with the prefix swizzle `range r.num` (as `ai_search_greedy` stores in
its initial node) gives the same result as regressing with no swizzle
(as `ai_search_dumb` does): the tag sets computed for the participants
coincide, the non-participants carry no tags so they neither trip the
validation nor change when rebuilt. -/
theorem root_backward_eq (r : Rule) (n : Nat) (hnum : r.num ≤ n)
    (hpre : ∀ p ∈ r.pre, p.entity < r.num ∧ ∀ b ∈ p.tag.binds, b < r.num)
    (hpost : ∀ p ∈ r.post, p.entity < r.num ∧ ∀ b ∈ p.tag.binds, b < r.num) :
    r.backward (startEntities n) (List.range r.num) =
      r.backward (startEntities n) [] := by
  rcases Nat.eq_zero_or_pos r.num with hz | hposm
  · rw [hz, List.range_zero]
  · have hElen : (startEntities n).length = n := startEntities_length n
    have hrne : ¬(List.range r.num).isEmpty = true := by
      simp [List.isEmpty_iff, List.range_eq_nil]
      omega
    have hW : swizzle_tuple (startEntities n) (List.range r.num) =
        (List.range r.num).map fun i => (startEntities n).getD i dEnt := by
      rw [swizzle_tuple, if_neg hrne]
    have hWlen : ((List.range r.num).map
        fun i => (startEntities n).getD i dEnt).length = r.num := by
      simp
    have hWgetD : ∀ b, b < r.num →
        ((List.range r.num).map fun i => (startEntities n).getD i dEnt).getD b dEnt =
          (startEntities n).getD b dEnt := by
      intro b hb
      rw [getD_map_lt _ (by simpa using hb) dEnt 0]
      have hg : (List.range r.num).getD b 0 = b := by
        rw [getD_eq_getElem (by simpa using hb), List.getElem_range]
      rw [hg]
    have hsw0 : swizzle_tuple (startEntities n) [] = startEntities n := rfl
    have hWtags : ∀ i, ((((List.range r.num).map
        fun j => (startEntities n).getD j dEnt)).getD i dEnt).tags = [] := by
      intro i
      by_cases hi : i < r.num
      · rw [hWgetD i hi]
        exact startEntities_tags_nil n i
      · rw [getD_oob (by rw [hWlen]; omega)]
        rfl
    have hWnotags : ∀ i, ((((List.range r.num).map
        fun j => (startEntities n).getD j dEnt)).getD i dEnt).notags = [] := by
      intro i
      by_cases hi : i < r.num
      · rw [hWgetD i hi]
        exact startEntities_notags_nil n i
      · rw [getD_oob (by rw [hWlen]; omega)]
        rfl
    have hmapD : ∀ (l : List Entity) (g : Entity → List Tag) (i : Nat),
        (∀ j, g (l.getD j dEnt) = []) → (l.map g).getD i [] = [] := by
      intro l g i hg
      by_cases hi : i < l.length
      · rw [getD_map_lt g hi [] dEnt]
        exact hg i
      · rw [getD_oob (by rw [List.length_map]; omega)]
    have hinit1 : EqUpTo n r.num ((startEntities n).map fun e => e.tags.dedup)
        (((List.range r.num).map fun i => (startEntities n).getD i dEnt).map
          fun e => e.tags.dedup) := by
      refine ⟨by rw [List.length_map, hElen], by rw [List.length_map, hWlen], ?_, ?_⟩
      · intro i hi
        rw [hmapD _ _ _ (fun j => by rw [startEntities_tags_nil n j, List.dedup_nil]),
          hmapD _ _ _ (fun j => by rw [hWtags j, List.dedup_nil])]
      · intro i hi
        rw [hmapD _ _ _ (fun j => by rw [startEntities_tags_nil n j, List.dedup_nil])]
    have hinit2 : EqUpTo n r.num ((startEntities n).map fun e => e.notags.dedup)
        (((List.range r.num).map fun i => (startEntities n).getD i dEnt).map
          fun e => e.notags.dedup) := by
      refine ⟨by rw [List.length_map, hElen], by rw [List.length_map, hWlen], ?_, ?_⟩
      · intro i hi
        rw [hmapD _ _ _ (fun j => by rw [startEntities_notags_nil n j, List.dedup_nil]),
          hmapD _ _ _ (fun j => by rw [hWnotags j, List.dedup_nil])]
      · intro i hi
        rw [hmapD _ _ _ (fun j => by rw [startEntities_notags_nil n j, List.dedup_nil])]
    have hrbagree : ∀ p : Pattern, (∀ b ∈ p.tag.binds, b < r.num) →
        resolveBinds ((List.range r.num).map fun i => (startEntities n).getD i dEnt)
            p.tag.binds =
          resolveBinds (startEntities n) p.tag.binds := by
      intro p hb
      simp only [resolveBinds]
      apply List.map_congr_left
      intro b hbm
      rw [hWgetD b (hb b hbm)]
    have hpost2 := foldl_postBack_equpto (E := startEntities n)
      (W := (List.range r.num).map fun i => (startEntities n).getD i dEnt)
      hnum r.post
      (fun p hp => ⟨(hpost p hp).1, hrbagree p (hpost p hp).2⟩)
      ((startEntities n).map fun e => e.tags.dedup,
        (startEntities n).map fun e => e.notags.dedup)
      (((List.range r.num).map fun i => (startEntities n).getD i dEnt).map
          fun e => e.tags.dedup,
        ((List.range r.num).map fun i => (startEntities n).getD i dEnt).map
          fun e => e.notags.dedup)
      hinit1 hinit2
    have hbs := foldl_preBack_equpto (E := startEntities n)
      (W := (List.range r.num).map fun i => (startEntities n).getD i dEnt)
      hnum r.pre
      (fun p hp => ⟨(hpre p hp).1, hrbagree p (hpre p hp).2⟩)
      _ _ hpost2.1 hpost2.2
    rw [backward_eq_def, backward_eq_def, hsw0, hW]
    have hbs1 : EqUpTo n r.num (backwardSets r (startEntities n)).1
        (backwardSets r ((List.range r.num).map
          fun i => (startEntities n).getD i dEnt)).1 := by
      simp only [backwardSets]
      exact hbs.1
    have hbs2 : EqUpTo n r.num (backwardSets r (startEntities n)).2
        (backwardSets r ((List.range r.num).map
          fun i => (startEntities n).getD i dEnt)).2 := by
      simp only [backwardSets]
      exact hbs.2
    rw [any_dup_equpto hnum hbs1]
    by_cases hdup : (backwardSets r ((List.range r.num).map
        fun i => (startEntities n).getD i dEnt)).1.any hasDupTagName = true
    · rw [if_pos hdup, if_pos hdup]
    · rw [if_neg hdup, if_neg hdup]
      congr 1
      have hZlen : (((List.range r.num).map
          fun i => (startEntities n).getD i dEnt).zipWith
            (fun e tnt => Entity.mk e.id e.name tnt.1 tnt.2)
            ((backwardSets r ((List.range r.num).map
              fun i => (startEntities n).getD i dEnt)).1.zip
             (backwardSets r ((List.range r.num).map
              fun i => (startEntities n).getD i dEnt)).2)).length = r.num := by
        rw [List.length_zipWith, List.length_zip, hWlen, hbs1.2.1, hbs2.2.1]
        omega
      have hZElen : ((startEntities n).zipWith
          (fun e tnt => Entity.mk e.id e.name tnt.1 tnt.2)
          ((backwardSets r (startEntities n)).1.zip
            (backwardSets r (startEntities n)).2)).length = n := by
        rw [List.length_zipWith, List.length_zip, hElen, hbs1.1, hbs2.1]
        omega
      have hune : unswizzle_tuple (startEntities n)
          ((startEntities n).zipWith (fun e tnt => Entity.mk e.id e.name tnt.1 tnt.2)
            ((backwardSets r (startEntities n)).1.zip
              (backwardSets r (startEntities n)).2)) [] =
          (startEntities n).zipWith (fun e tnt => Entity.mk e.id e.name tnt.1 tnt.2)
            ((backwardSets r (startEntities n)).1.zip
              (backwardSets r (startEntities n)).2) := rfl
      rw [hune]
      apply List.ext_getElem
      · rw [unswizzle_length _ _ _ hrne, hElen, hZElen]
      · intro i hi1 hi2
        have hin : i < n := by rw [hZElen] at hi2; exact hi2
        have hrhs : ((startEntities n).zipWith
            (fun e tnt => Entity.mk e.id e.name tnt.1 tnt.2)
            ((backwardSets r (startEntities n)).1.zip
              (backwardSets r (startEntities n)).2))[i] =
            Entity.mk ((startEntities n).getD i dEnt).id
              ((startEntities n).getD i dEnt).name
              ((backwardSets r (startEntities n)).1.getD i [])
              ((backwardSets r (startEntities n)).2.getD i []) := by
          rw [List.getElem_zipWith, List.getElem_zip]
          rw [getD_eq_getElem (by rw [hElen]; omega),
            getD_eq_getElem (by rw [hbs1.1]; omega),
            getD_eq_getElem (by rw [hbs2.1]; omega)]
        rw [hrhs]
        rw [← getD_eq_getElem hi1]
        by_cases him : i < r.num
        · have hfold := foldl_set_getD_nodup
            (((List.range r.num).map fun j => (startEntities n).getD j dEnt).zipWith
              (fun e tnt => Entity.mk e.id e.name tnt.1 tnt.2)
              ((backwardSets r ((List.range r.num).map
                fun j => (startEntities n).getD j dEnt)).1.zip
               (backwardSets r ((List.range r.num).map
                fun j => (startEntities n).getD j dEnt)).2))
            (List.range r.num) (startEntities n) (List.nodup_range r.num)
            (by rw [hZlen]; simp)
            (fun j hj => by rw [hElen]; have := List.mem_range.1 hj; omega)
            i (by simpa using him)
          have hgr : (List.range r.num).getD i 0 = i := by
            rw [getD_eq_getElem (by simpa using him), List.getElem_range]
          rw [hgr] at hfold
          rw [unswizzle_tuple, if_neg hrne]
          rw [hfold]
          have hiz : i < (((List.range r.num).map
              fun j => (startEntities n).getD j dEnt).zipWith
              (fun e tnt => Entity.mk e.id e.name tnt.1 tnt.2)
              ((backwardSets r ((List.range r.num).map
                fun j => (startEntities n).getD j dEnt)).1.zip
               (backwardSets r ((List.range r.num).map
                fun j => (startEntities n).getD j dEnt)).2)).length := by
            rw [hZlen]; omega
          rw [getD_eq_getElem hiz, List.getElem_zipWith, List.getElem_zip]
          rw [← getD_eq_getElem (l := (List.range r.num).map
              fun j => (startEntities n).getD j dEnt) (by rw [hWlen]; omega),
            ← getD_eq_getElem (by rw [hbs1.2.1]; omega),
            ← getD_eq_getElem (by rw [hbs2.2.1]; omega)]
          rw [hWgetD i him, ← hbs1.2.2.1 i him, ← hbs2.2.2.1 i him]
        · rw [unswizzle_getD_not_mem _ _ _ i (by simp [List.mem_range]; omega) hrne]
          rw [startEntities_getD hin]
          rw [hbs1.2.2.2 i (by omega), hbs2.2.2.2 i (by omega)]

/-- C9 (amended): when the root application validates (its prefix-swizzle
regression from the synthesized start pool replays), the root rule fits
the entity budget and its patterns are well formed, `ai_search_greedy`
and `ai_search_dumb` yield permutations of each other: the same chains
(as a multiset, hence as a set), differing only in emission order. -/
theorem claim_C9_amended (rules : List Rule) (root : Rule) (n maxDepth : Nat)
    (hnum : root.num ≤ n)
    (hpre : ∀ p ∈ root.pre, p.entity < root.num ∧ ∀ b ∈ p.tag.binds, b < root.num)
    (hpost : ∀ p ∈ root.post, p.entity < root.num ∧ ∀ b ∈ p.tag.binds, b < root.num)
    (hvalid : check_chain (root.backward (startEntities n) (List.range root.num))
      [AiRule.mk root (List.range root.num)] = true) :
    (ai_search_greedy rules root n maxDepth).Perm
      (ai_search_dumb rules root n maxDepth) := by
  rcases hb : root.backward (startEntities n) (List.range root.num) with - | start0
  · rw [hb] at hvalid
    simp [check_chain] at hvalid
  · have hms : workMeasure (candList rules n).length maxDepth
        [Node.mk 0 (startEntities n) [AiRule.mk root (List.range root.num)]] =
        ((candList rules n).length + 1) ^ (maxDepth + 1) := rfl
    have hg : (ai_search_greedy rules root n maxDepth).Perm
        (nodeYields rules n maxDepth (maxDepth + 1)
          (Node.mk 0 (startEntities n) [AiRule.mk root (List.range root.num)])) := by
      have h1 := greedyLoop_perm rules n maxDepth (greedyFuel rules n maxDepth)
        [Node.mk 0 (startEntities n) [AiRule.mk root (List.range root.num)]]
        (by
          intro nd hnd
          rcases List.mem_singleton.1 hnd with rfl
          show 1 ≤ maxDepth + 1
          omega)
        (by
          rw [hms]
          show ((candList rules n).length + 1) ^ (maxDepth + 1) ≤
            ((candList rules n).length + 1) ^ (maxDepth + 2)
          exact Nat.pow_le_pow_right (by omega) (by omega))
      refine h1.trans ?_
      rw [List.flatMap_cons, List.flatMap_nil, List.append_nil]
      exact List.Perm.refl _
    have hnd := nodeYields_eq_dumbStep rules n maxDepth (maxDepth + 1)
      (Node.mk 0 (startEntities n) [AiRule.mk root (List.range root.num)]) start0
      (by show maxDepth + 1 = maxDepth + 2 - 1; omega)
      (by show 1 ≤ maxDepth + 1; omega)
      (by show root.backward (startEntities n) (List.range root.num) = some start0
          exact hb)
      (by rw [hb] at hvalid; exact hvalid)
    have hd : ai_search_dumb rules root n maxDepth =
        dumbStep rules n maxDepth start0 [AiRule.mk root (List.range root.num)] := by
      have hb0 : root.backward (startEntities n) [] = some start0 := by
        rw [← root_backward_eq root n hnum hpre hpost]
        exact hb
      simp only [ai_search_dumb, hb0]
      rw [List.take_range, min_eq_left hnum]
    refine hg.trans ?_
    rw [hnd, hd]
    exact List.Perm.refl _

/-- C9 (counterexample): the two strategies do not yield the same set of
chains on all inputs.  With root rule `cexRulePm` (whose regression
succeeds but never replays), one entity and depth 0, the greedy search
discards the unvalidated root chain and yields nothing while the dumb
search yields it. -/
theorem claim_C9_counterexample :
    ai_search_greedy [] cexRulePm 1 0 = [] ∧ ai_search_dumb [] cexRulePm 1 0 ≠ [] :=
  ⟨by decide, by decide⟩

/-- C9 witness: the amended theorem applied to the one-rule library
`cexRuleFoo` with itself as root, one entity, depth 1. -/
theorem claim_C9_witness :
    (ai_search_greedy [cexRuleFoo] cexRuleFoo 1 1).Perm
      (ai_search_dumb [cexRuleFoo] cexRuleFoo 1 1) :=
  claim_C9_amended [cexRuleFoo] cexRuleFoo 1 1 (by decide) (by decide) (by decide)
    (by decide)

/-! ### C6 — how the greedy frontier orders its entries -/

/-- Two frontier nodes with equal score, as `ai_search_greedy` pushes
during one expansion: the candidate with swizzle `[1]`. -/
def cexNodeA : Node := Node.mk 1 (startEntities 1) [AiRule.mk cexRuleFoo [1]]

/-- The equal-score sibling with swizzle `[0]`, which the Python tuple
comparison orders before `cexNodeA`. -/
def cexNodeB : Node := Node.mk 1 (startEntities 1) [AiRule.mk cexRuleFoo [0]]

/-- The array-heap shape invariant `heapq` maintains on the frontier:
no element is smaller than its parent. -/
def IsMinHeap (work : List Node) : Prop :=
  ∀ j, j < work.length → 0 < j →
    nodePyLt (work.getD j dNode) (work.getD ((j - 1) / 2) dNode) = false

instance (work : List Node) : Decidable (IsMinHeap work) := by
  unfold IsMinHeap
  infer_instance

/-- `heappop` hands back the element at position 0. -/
theorem heappop_fst {α : Type} (lt : α → α → Bool) (d : α) (heap : List α)
    (h : heap ≠ []) : (heappop lt d heap).1 = heap.getD 0 d := by
  match heap with
  | [a] => simp [heappop]
  | a :: b :: t =>
    have hdl : (a :: b :: t).dropLast = a :: (b :: t).dropLast := rfl
    rw [heappop, hdl, if_neg (by simp)]
    rfl

/-- The first component of the node comparison: a node that is not
smaller than another has at least its score. -/
theorem score_le_of_not_nodePyLt {a b : Node} (h : nodePyLt a b = false) :
    b.score ≤ a.score := by
  rw [nodePyLt] at h
  by_cases he : a.score = b.score
  · omega
  · rw [if_neg he] at h
    have h2 := of_decide_eq_false h
    omega

/-- In a well-shaped heap the root's score is minimal: walk any
position's parent chain to the root. -/
theorem isMinHeap_root_le (work : List Node) (hh : IsMinHeap work) :
    ∀ j, j < work.length →
      (work.getD 0 dNode).score ≤ (work.getD j dNode).score := by
  intro j
  induction j using Nat.strong_induction_on with
  | _ j ih =>
    intro hj
    rcases Nat.eq_zero_or_pos j with h0 | hpos
    · subst h0
      exact Nat.le_refl _
    · have h2 := hh j hj hpos
      have h3 := score_le_of_not_nodePyLt h2
      have h4 := ih ((j - 1) / 2) (by omega) (by omega)
      omega

/-- C6 (amended): the greedy frontier is a binary `heapq` array heap
ordered by the full Python tuple comparison `(score, entities, chain)`:
`heappush` inserts preserving the multiset of entries, `heappop`
removes and returns the entry at the root position, and under the heap
shape invariant the popped root has minimal score — so emission is
score-ascending, but equal scores are tie-broken by comparing
`entities` and then `chain`, not by insertion order. -/
theorem claim_C6_amended :
    (∀ (work : List Node) (x : Node),
      (heappush nodePyLt dNode work x).Perm (x :: work)) ∧
    (∀ work : List Node, work ≠ [] →
      work.Perm ((heappop nodePyLt dNode work).1 :: (heappop nodePyLt dNode work).2)) ∧
    (∀ work : List Node, work ≠ [] →
      (heappop nodePyLt dNode work).1 = work.getD 0 dNode) ∧
    (∀ work : List Node, IsMinHeap work → ∀ j, j < work.length →
      (work.getD 0 dNode).score ≤ (work.getD j dNode).score) :=
  ⟨fun work x => heappush_perm nodePyLt dNode work x,
   fun work h => heappop_perm nodePyLt dNode work h,
   fun work h => heappop_fst nodePyLt dNode work h,
   fun work hh => isMinHeap_root_le work hh⟩

/-- C6 (counterexample): ties are not broken by insertion order.  Push
the equal-score `cexNodeA` and then `cexNodeB` onto an empty frontier:
the pop returns the later-pushed `cexNodeB`, because the score tie is
broken by Python tuple comparison (entities, then chain), under which
`cexNodeB`'s chain is smaller. -/
theorem claim_C6_counterexample :
    cexNodeA.score = cexNodeB.score ∧ cexNodeA ≠ cexNodeB ∧
    (heappop nodePyLt dNode
        (heappush nodePyLt dNode (heappush nodePyLt dNode [] cexNodeA) cexNodeB)).1 =
      cexNodeB :=
  ⟨rfl, by decide, by decide⟩

/-- C6 witness: the amended theorem applied to the two-node frontier
`[cexNodeB, cexNodeA]`. -/
theorem claim_C6_witness :
    (heappop nodePyLt dNode [cexNodeB, cexNodeA]).1 =
      ([cexNodeB, cexNodeA] : List Node).getD 0 dNode :=
  claim_C6_amended.2.2.1 [cexNodeB, cexNodeA] (by decide)

end DbProto
